import Mathlib

/-!
Verification of the `schedule_hypergraph` crate (ordinator-hypergraph).

The Rust sources are shallowly embedded: every public and private method of
`ScheduleGraph` (src/crates/schedule_hypergraph/src/schedule_graph.rs) and the
value types it consumes (src/crates/scheduling_environment) are translated to
executable Lean definitions.  Rust `HashMap`s become association lists
consulted through `imGet` (front entry shadows older ones, as `insert`
overwrites); the `BTreeMap` of day indices becomes a list kept sorted by key
(`dmInsert`), since `add_exclusion` iterates it in date order.  `chrono`
dates are integers counting days; times-of-day are opaque integers.  A Rust
panic (the duplicate-key `assert!` in `add_node`, a `todo!()`, an
out-of-bounds index on a `Vec`) is modelled as `Option.none`; fallible
operations return `Except` inside the graph-state pair, mirroring how a Rust
`Err` return still keeps any mutations already applied to `&mut self`.
-/

namespace OrdinatorHypergraph

abbrev NodeIndex := Nat
abbrev EdgeIndex := Nat
abbrev TechnicianId := Nat
/-- `chrono::NaiveDate`, as a count of days. -/
abbrev Date := Int
/-- `chrono::NaiveTime`; carried opaquely in `Assign` payloads. -/
abbrev Time := Int

/-- `scheduling_environment::technician::Skill`. -/
inductive Skill
  | MtnMech
  | MtnElec
deriving DecidableEq

/-- `scheduling_environment::Period`: a period identified by its start date. -/
structure Period where
  start_date : Date
deriving DecidableEq

abbrev WorkOrderNumber := Nat
abbrev ActivityNumber := Nat
abbrev NumberOfPeople := Nat

/-- `scheduling_environment::work_order::Activity`. -/
structure Activity where
  activity_number : ActivityNumber
  number_of_people : NumberOfPeople
  resource : Skill
deriving DecidableEq

/-- `scheduling_environment::work_order::ActivityRelation`. -/
inductive ActivityRelation
  | StartStart
  | FinishStart
  | Postpone (delta : Int)
deriving DecidableEq

/-- `scheduling_environment::work_order::WorkOrder` (fields only; the
checks of `WorkOrder::new` do not matter to the graph operations). -/
structure WorkOrder where
  work_order_number : WorkOrderNumber
  basic_start_date : Date
  activities : List Activity
deriving DecidableEq

/-- `WorkOrder::activities_relations`: `(0..self.activities.len()).map(|_|
ActivityRelation::FinishStart).collect()`. -/
def WorkOrder.activities_relations (w : WorkOrder) : List ActivityRelation :=
  (List.range w.activities.length).map (fun _ => ActivityRelation.FinishStart)

/-- `scheduling_environment::technician::Technician`; `skills` stands for the
`BTreeSet<Skill>` as the list `Technician::skills()` iterates over. -/
structure Technician where
  technician_id : TechnicianId
  skills : List Skill
deriving DecidableEq

/-- `scheduling_environment::technician::Availability`; `add_technician` only
consults `start_date()` and `finish_date()` of the two `NaiveDateTime`s. -/
structure Availability where
  start_date : Date
  finish_date : Date
deriving DecidableEq

/-- `schedule_graph::Node`. -/
structure ActivityNode where
  activity_number : ActivityNumber
  number_of_people : NumberOfPeople
deriving DecidableEq

inductive Node
  | technician (id : TechnicianId)
  | workOrder (n : WorkOrderNumber)
  | activity (a : ActivityNode)
  | period (p : Period)
  | skill (s : Skill)
  | day (d : Date)
deriving DecidableEq

/-- `schedule_graph::EdgeType`. -/
inductive EdgeType
  | assign (window : Option (Time × Time))
  | available
  | exclude
  | basicStart
  | contains
  | requires
  | startStart
  | finishStart
  | hasSkill
deriving DecidableEq

/-- `schedule_graph::HyperEdge`. -/
structure HyperEdge where
  edge_type : EdgeType
  nodes : List NodeIndex
deriving DecidableEq

/-- Placeholder a Rust `Vec` index panic would hit; it is only consulted at
out-of-bounds accesses, which the invariants below rule out. -/
def junkNode : Node := Node.technician 0

def junkEdge : HyperEdge := { edge_type := EdgeType.assign none, nodes := [] }

/-- `schedule_graph::ScheduleGraphErrors`. -/
inductive ScheduleGraphErrors
  | ActivityMissing
  | DayMissing
  | PeriodDuplicate
  | PeriodMissing
  | SkillMissing
  | WorkOrderActivityMissingSkills
  | WorkOrderDuplicate
  | WorkOrderMissing
  | WorkerUnavailable
  | WorkerMissing
  | WorkerDuplicate
  | ActivityExceedNumberOfPeople
deriving DecidableEq

deriving instance DecidableEq for Except

/-- Lookup in a `HashMap` modelled as an association list whose newest entry
is at the front. -/
def imGet {K : Type} [DecidableEq K] (m : List (K × NodeIndex)) (k : K) : Option NodeIndex :=
  (m.find? (fun e => decide (e.1 = k))).map (fun e => e.2)

/-- Lookup in the `BTreeMap<NaiveDate, NodeIndex>` of day indices. -/
def dmGet (m : List (Date × NodeIndex)) (k : Date) : Option NodeIndex :=
  (m.find? (fun e => decide (e.1 = k))).map (fun e => e.2)

/-- `BTreeMap::insert`: keeps the entry list sorted by key and overwrites an
equal key, so iteration (`add_exclusion`) sees each date once, in order. -/
def dmInsert (m : List (Date × NodeIndex)) (k : Date) (v : NodeIndex) :
    List (Date × NodeIndex) :=
  match m with
  | [] => [(k, v)]
  | e :: rest =>
    if k < e.1 then (k, v) :: e :: rest
    else if k = e.1 then (k, v) :: rest
    else e :: dmInsert rest k v

/-- `schedule_graph::ScheduleGraph`. -/
structure ScheduleGraph where
  nodes : List Node
  hyperedges : List HyperEdge
  incidence_list : List (List EdgeIndex)
  technician_indices : List (TechnicianId × NodeIndex)
  work_order_indices : List (WorkOrderNumber × NodeIndex)
  period_indices : List (Period × NodeIndex)
  skill_indices : List (Skill × NodeIndex)
  day_indices : List (Date × NodeIndex)
deriving DecidableEq

namespace ScheduleGraph

/-- `ScheduleGraph::new`. -/
def new : ScheduleGraph :=
  { nodes := []
    hyperedges := []
    incidence_list := []
    technician_indices := []
    work_order_indices := []
    period_indices := []
    skill_indices := []
    day_indices := [] }

/-- The duplicate-key check `add_node` performs through its `insert` return
value (`none_checker`): the previous binding of the new node's key, if any. -/
def indexLookup (g : ScheduleGraph) : Node → Option NodeIndex
  | .technician w => imGet g.technician_indices w
  | .workOrder w => imGet g.work_order_indices w
  | .period p => imGet g.period_indices p
  | .skill s => imGet g.skill_indices s
  | .activity _ => none
  | .day d => dmGet g.day_indices d

/-- The index insertion `add_node` performs for the new node's key. -/
def insertIndex (g : ScheduleGraph) (node : Node) (i : NodeIndex) : ScheduleGraph :=
  match node with
  | .technician w => { g with technician_indices := (w, i) :: g.technician_indices }
  | .workOrder w => { g with work_order_indices := (w, i) :: g.work_order_indices }
  | .period p => { g with period_indices := (p, i) :: g.period_indices }
  | .skill s => { g with skill_indices := (s, i) :: g.skill_indices }
  | .activity _ => g
  | .day d => { g with day_indices := dmInsert g.day_indices d i }

/-- `ScheduleGraph::add_node`.  The source inserts the key, asserts that no
previous binding existed (`assert!(none_checker.is_none())`, a panic —
modelled as `none`), pushes an empty incidence entry, and pushes the node. -/
def add_node (g : ScheduleGraph) (node : Node) : Option (ScheduleGraph × NodeIndex) :=
  let node_index := g.nodes.length
  match g.indexLookup node with
  | some _ => none
  | none =>
    let g1 := g.insertIndex node node_index
    some ({ g1 with
              incidence_list := g1.incidence_list ++ [[]]
              nodes := g1.nodes ++ [node] },
          node_index)

/-- `ScheduleGraph::add_edge`: records the edge and pushes its index onto the
incidence entry of every node in its list.  `self.incidence_list[*n].push(e)`
panics when `n` is out of bounds; here `List.set` is a no-op then, and the
invariant proofs show all callers stay in bounds. -/
def add_edge (g : ScheduleGraph) (edge_type : EdgeType) (nodes : List NodeIndex) :
    ScheduleGraph × EdgeIndex :=
  let edge_index := g.hyperedges.length
  let inc := nodes.foldl (fun acc n => acc.set n (acc.getD n [] ++ [edge_index]))
    g.incidence_list
  ({ g with
       incidence_list := inc
       hyperedges := g.hyperedges ++ [{ edge_type := edge_type, nodes := nodes }] },
   edge_index)

/-- `ScheduleGraph::add_skill`: create-or-get; infallible in the source. -/
def add_skill (g : ScheduleGraph) (skill : Skill) : Option (ScheduleGraph × NodeIndex) :=
  match imGet g.skill_indices skill with
  | some existing => some (g, existing)
  | none => g.add_node (.skill skill)

/-- The day-creation loop of `add_period`: `add_node(Day)` followed by the
(redundant) re-insert into `day_indices`. -/
def addDaysLoop (g : ScheduleGraph) : List Date → Option ScheduleGraph
  | [] => some g
  | day :: rest =>
    match g.add_node (.day day) with
    | none => none
    | some (g1, day_node) =>
      addDaysLoop { g1 with day_indices := dmInsert g1.day_indices day day_node } rest

/-- The 14 dates `(0..14).map(|e| period.start_date() + Days::new(e))`. -/
def daysInPeriod (start : Date) : List Date :=
  (List.range 14).map (fun e => start + Int.ofNat e)

/-- `ScheduleGraph::add_period`. -/
def add_period (g : ScheduleGraph) (period : Period) :
    Option (ScheduleGraph × Except ScheduleGraphErrors NodeIndex) :=
  if (imGet g.period_indices period).isSome then
    some (g, .error .PeriodDuplicate)
  else
    let days_in_period := daysInPeriod period.start_date
    match addDaysLoop g days_in_period with
    | none => none
    | some g1 =>
      match g1.add_node (.period period) with
      | none => none
      | some (g2, node_id) =>
        some ({ g2 with period_indices := (period, node_id) :: g2.period_indices },
              .ok node_id)

/-- The per-activity loop body of `add_work_order`.  A returned
`.error` carries the graph as already mutated (the Rust `?` operator leaves
`&mut self` as is); `none` models the `todo!()` on `Postpone` and an
out-of-bounds read of `activity_relations`. -/
def work_order_loop (g : ScheduleGraph) (work_order_node_index : NodeIndex)
    (activity_relations : List ActivityRelation) (previous_activity_node : NodeIndex)
    (activity_index : Nat) :
    List Activity → Option (ScheduleGraph × Except ScheduleGraphErrors Unit)
  | [] => some (g, .ok ())
  | activity :: rest =>
    match g.add_node (.activity { activity_number := activity.activity_number,
                                  number_of_people := activity.number_of_people }) with
    | none => none
    | some (g1, activity_node_index) =>
      match imGet g1.skill_indices activity.resource with
      | none => some (g1, .error .SkillMissing)
      | some skill_node_index =>
        let g2 := (g1.add_edge .contains [work_order_node_index, activity_node_index]).1
        let g3 := (g2.add_edge .requires [activity_node_index, skill_node_index]).1
        let step : Option ScheduleGraph :=
          if activity_index ≠ 0 then
            match activity_relations.get? (activity_index - 1) with
            | some .StartStart =>
              some (g3.add_edge .startStart [previous_activity_node, activity_node_index]).1
            | some .FinishStart =>
              some (g3.add_edge .finishStart [previous_activity_node, activity_node_index]).1
            | some (.Postpone _) => none
            | none => none
          else some g3
        match step with
        | none => none
        | some g4 =>
          work_order_loop g4 work_order_node_index activity_relations activity_node_index
            (activity_index + 1) rest

/-- `usize::MAX`, the sentinel `previous_activity_node` starts at. -/
def usizeMaxSentinel : Nat := 2 ^ 64 - 1

/-- `ScheduleGraph::add_work_order`. -/
def add_work_order (g : ScheduleGraph) (work_order : WorkOrder) :
    Option (ScheduleGraph × Except ScheduleGraphErrors NodeIndex) :=
  if ¬ (work_order.activities.all (fun activity =>
      g.skill_indices.any (fun e => decide (e.1 = activity.resource)))) then
    some (g, .error .WorkOrderActivityMissingSkills)
  else
    match dmGet g.day_indices work_order.basic_start_date with
    | none => some (g, .error .DayMissing)
    | some day_node_index =>
      match imGet g.work_order_indices work_order.work_order_number with
      | some _ => some (g, .error .WorkOrderDuplicate)
      | none =>
        match g.add_node (.workOrder work_order.work_order_number) with
        | none => none
        | some (g1, work_order_node_index) =>
          let g2 := (g1.add_edge .basicStart [work_order_node_index, day_node_index]).1
          match work_order_loop g2 work_order_node_index work_order.activities_relations
              usizeMaxSentinel 0 work_order.activities with
          | none => none
          | some (g3, .error e) => some (g3, .error e)
          | some (g3, .ok _) =>
            some ({ g3 with work_order_indices :=
                      (work_order.work_order_number, work_order_node_index) ::
                        g3.work_order_indices },
                  .ok work_order_node_index)

/-- The skill-resolution loop of `add_technician`. -/
def collectSkills (g : ScheduleGraph) :
    List Skill → Except ScheduleGraphErrors (List NodeIndex)
  | [] => .ok []
  | s :: rest =>
    match imGet g.skill_indices s with
    | none => .error .SkillMissing
    | some i => (collectSkills g rest).map (fun l => i :: l)

/-- The dates `(0..=number_of_days).map(|d| availability.start_date() +
Duration::days(d))`, where `number_of_days` is the (possibly negative) whole
day count of `finish_date - start_date`. -/
def availabilityDates (availability : Availability) : List Date :=
  let number_of_days := availability.finish_date - availability.start_date
  (List.range (number_of_days + 1).toNat).map
    (fun d => availability.start_date + Int.ofNat d)

/-- The day-resolution loop of `add_technician`
(`single_availability`). -/
def collectAvailabilityDays (g : ScheduleGraph) :
    List Date → Except ScheduleGraphErrors (List NodeIndex)
  | [] => .ok []
  | d :: rest =>
    match dmGet g.day_indices d with
    | none => .error .DayMissing
    | some i => (collectAvailabilityDays g rest).map (fun l => i :: l)

/-- `ScheduleGraph::add_technician`. -/
def add_technician (g : ScheduleGraph) (technician : Technician)
    (availability : Availability) :
    Option (ScheduleGraph × Except ScheduleGraphErrors NodeIndex) :=
  if (imGet g.technician_indices technician.technician_id).isSome then
    some (g, .error .WorkerDuplicate)
  else
    match collectSkills g technician.skills with
    | .error e => some (g, .error e)
    | .ok skills =>
      match collectAvailabilityDays g (availabilityDates availability) with
      | .error e => some (g, .error e)
      | .ok single_availability =>
        match g.add_node (.technician technician.technician_id) with
        | none => none
        | some (g1, technician_id) =>
          let edges := technician_id :: (skills ++ single_availability)
          let res := g1.add_edge .available edges
          some (res.1, .ok res.2)

/-- `ScheduleGraph::add_assignment_work_order`.  Note: the hyperedge is pushed
directly onto the arena, bypassing `add_edge`, so no incidence entry learns of
it. -/
def add_assignment_work_order (g : ScheduleGraph) (worker : TechnicianId)
    (work_order : WorkOrderNumber) (date : Period) :
    ScheduleGraph × Except ScheduleGraphErrors EdgeIndex :=
  match imGet g.technician_indices worker with
  | none => (g, .error .WorkerMissing)
  | some worker_index =>
    match imGet g.work_order_indices work_order with
    | none => (g, .error .WorkOrderMissing)
    | some work_order_index =>
      match imGet g.period_indices date with
      | none => (g, .error .PeriodMissing)
      | some date_index =>
        let hyperedge : HyperEdge :=
          { edge_type := .assign none, nodes := [worker_index, work_order_index, date_index] }
        let g1 := { g with hyperedges := g.hyperedges ++ [hyperedge] }
        (g1, .ok (g1.hyperedges.length - 1))

/-- The dates of the `Day` nodes an `Available` hyperedge references
(`availability_days` in `add_assignment_activity`). -/
def availableEdgeDays (g : ScheduleGraph) (e : EdgeIndex) : List Date :=
  (g.hyperedges.getD e junkEdge).nodes.filterMap (fun n =>
    match g.nodes.getD n junkNode with
    | .day naive_date => some naive_date
    | _ => none)

/-- One technician's coverage check: among its incident `Available` edges
(the source filters on the kind, then matches it again with an
`unreachable!()` fallback), some edge's day set contains every requested
day. -/
def technicianCovered (g : ScheduleGraph) (technician_node_index : NodeIndex)
    (days : List Date) : Bool :=
  ((g.incidence_list.getD technician_node_index []).filter (fun h =>
      decide ((g.hyperedges.getD h junkEdge).edge_type = EdgeType.available))).any
    (fun h => days.all (fun activity_day => (availableEdgeDays g h).contains activity_day))

/-- The labelled `'technician` loop of `add_assignment_activity`: resolve each
id, then `continue` on the first covering `Available` edge, or fail the whole
call with `WorkerUnavailable`. -/
def technician_loop (g : ScheduleGraph) (days : List Date) :
    List TechnicianId → Except ScheduleGraphErrors (List NodeIndex)
  | [] => .ok []
  | t :: rest =>
    match imGet g.technician_indices t with
    | none => .error .WorkerMissing
    | some technician_node_index =>
      if technicianCovered g technician_node_index days then
        (technician_loop g days rest).map (fun l => technician_node_index :: l)
      else
        .error .WorkerUnavailable

/-- The day-resolution loop of `add_assignment_activity`
(`date_node_indices`). -/
def collectDayIndices (g : ScheduleGraph) :
    List Date → Except ScheduleGraphErrors (List NodeIndex)
  | [] => .ok []
  | d :: rest =>
    match dmGet g.day_indices d with
    | none => .error .DayMissing
    | some i => (collectDayIndices g rest).map (fun l => i :: l)

/-- `ScheduleGraph::add_assignment_activity`. -/
def add_assignment_activity (g : ScheduleGraph) (technicians : List TechnicianId)
    (work_order_number : WorkOrderNumber) (activity_number : ActivityNumber)
    (days : List Date) (start_and_finish_time : Time × Time) :
    ScheduleGraph × Except ScheduleGraphErrors EdgeIndex :=
  match collectDayIndices g days with
  | .error e => (g, .error e)
  | .ok date_node_indices =>
    match technician_loop g days technicians with
    | .error e => (g, .error e)
    | .ok technician_node_indices =>
      match imGet g.work_order_indices work_order_number with
      | none => (g, .error .WorkOrderMissing)
      | some work_order_node_index =>
        match g.incidence_list.get? work_order_node_index with
        | none => (g, .error .WorkOrderMissing)
        | some incident =>
          match incident.findSome? (fun h =>
              (g.hyperedges.getD h junkEdge).nodes.find? (fun n =>
                match g.nodes.getD n junkNode with
                | .activity activity => decide (activity.activity_number = activity_number)
                | _ => false)) with
          | none => (g, .error .ActivityMissing)
          | some activity_node_index =>
            let headcount_exceeded : Bool :=
              match g.nodes.getD activity_node_index junkNode with
              | .activity activity => decide (activity.number_of_people < technicians.length)
              | _ => false
            if headcount_exceeded then
              (g, .error .ActivityExceedNumberOfPeople)
            else
              let final_nodes := activity_node_index ::
                (technician_node_indices ++ date_node_indices)
              let res := g.add_edge (.assign (some start_and_finish_time)) final_nodes
              (res.1, .ok res.2)

/-- `ScheduleGraph::find_all_assignments_for_period`. -/
def find_all_assignments_for_period (g : ScheduleGraph) (period_start_date : Period) :
    Except ScheduleGraphErrors (List EdgeIndex) :=
  if ¬ (g.nodes.any (fun e => decide (e = Node.period period_start_date))) then
    .error .PeriodMissing
  else
    let assignment_hyper_edges := g.hyperedges.enum.filter (fun e =>
      match e.2.edge_type with
      | .assign _ => true
      | _ => false)
    .ok (assignment_hyper_edges.foldl (fun edges ie =>
      ie.2.nodes.foldl (fun edges n =>
        match g.nodes.getD n junkNode with
        | .period period =>
          if period = period_start_date then edges ++ [ie.1] else edges
        | .day naive_date =>
          if period_start_date.start_date ≤ naive_date ∧
              naive_date < period_start_date.start_date + 13 then
            edges ++ [ie.1]
          else edges
        | _ => edges) edges) [])

/-- `ScheduleGraph::add_assign_skill_to_worker`. -/
def add_assign_skill_to_worker (g : ScheduleGraph) (worker : TechnicianId)
    (skill : Skill) : ScheduleGraph × Except ScheduleGraphErrors EdgeIndex :=
  match imGet g.technician_indices worker with
  | none => (g, .error .WorkerMissing)
  | some worker_index =>
    match imGet g.skill_indices skill with
    | none => (g, .error .SkillMissing)
    | some skill_index =>
      let res := g.add_edge .hasSkill [worker_index, skill_index]
      (res.1, .ok res.2)

/-- `ScheduleGraph::add_exclusion`.  The day window scan is over the ordered
day index; `checked_add_days(Days::new(13)).unwrap()` is `start_date + 13`. -/
def add_exclusion (g : ScheduleGraph) (work_order_number : WorkOrderNumber)
    (period : Period) : ScheduleGraph × Except ScheduleGraphErrors EdgeIndex :=
  match imGet g.work_order_indices work_order_number with
  | none => (g, .error .WorkOrderMissing)
  | some work_order_node_index =>
    match imGet g.period_indices period with
    | none => (g, .error .PeriodMissing)
    | some period_node_index =>
      let days_node_indices := g.day_indices.filterMap (fun e =>
        if period.start_date ≤ e.1 ∧ e.1 ≤ period.start_date + 13 then some e.2
        else none)
      let final_nodes := work_order_node_index :: period_node_index :: days_node_indices
      let res := g.add_edge .exclude final_nodes
      (res.1, .ok res.2)

end ScheduleGraph

/-- The graph states reachable from the empty graph through the public
construction operations; a panicking execution (`none`) produces no state. -/
inductive Reachable : ScheduleGraph → Prop
  | empty : Reachable ScheduleGraph.new
  | add_skill {g g1 s i} : Reachable g →
      g.add_skill s = some (g1, i) → Reachable g1
  | add_period {g g1 p r} : Reachable g →
      g.add_period p = some (g1, r) → Reachable g1
  | add_work_order {g g1 w r} : Reachable g →
      g.add_work_order w = some (g1, r) → Reachable g1
  | add_technician {g g1 t a r} : Reachable g →
      g.add_technician t a = some (g1, r) → Reachable g1
  | add_assignment_work_order {g g1 w wo p r} : Reachable g →
      g.add_assignment_work_order w wo p = (g1, r) → Reachable g1
  | add_assignment_activity {g g1 ts won an ds tw r} : Reachable g →
      g.add_assignment_activity ts won an ds tw = (g1, r) → Reachable g1
  | add_assign_skill_to_worker {g g1 w s r} : Reachable g →
      g.add_assign_skill_to_worker w s = (g1, r) → Reachable g1
  | add_exclusion {g g1 won p r} : Reachable g →
      g.add_exclusion won p = (g1, r) → Reachable g1

/-! ### Lemmas about the index-map primitives -/

theorem imGet_cons {K : Type} [DecidableEq K] (k : K) (v : NodeIndex)
    (m : List (K × NodeIndex)) (key : K) :
    imGet ((k, v) :: m) key = if k = key then some v else imGet m key := by
  by_cases h : k = key <;> simp [imGet, List.find?, h]

theorem imGet_mem {K : Type} [DecidableEq K] {m : List (K × NodeIndex)} {k : K}
    {i : NodeIndex} (h : imGet m k = some i) : (k, i) ∈ m := by
  unfold imGet at h
  cases hf : m.find? (fun e => decide (e.1 = k)) with
  | none => simp [hf] at h
  | some e =>
    have he : e ∈ m := List.mem_of_find?_eq_some hf
    have hk : e.1 = k := by
      have := List.find?_some hf
      simpa using this
    simp [hf] at h
    have : e = (k, i) := by
      cases e; simp_all
    exact this ▸ he

theorem imGet_isSome_of_any {K : Type} [DecidableEq K] {m : List (K × NodeIndex)}
    {k : K} (h : m.any (fun e => decide (e.1 = k)) = true) : (imGet m k).isSome := by
  unfold imGet
  cases hf : m.find? (fun e => decide (e.1 = k)) with
  | none =>
    rcases List.any_eq_true.mp h with ⟨e, he, hk⟩
    have := List.find?_eq_none.mp hf e he
    simp_all
  | some e => simp

theorem dmGet_mem {m : List (Date × NodeIndex)} {k : Date} {i : NodeIndex}
    (h : dmGet m k = some i) : (k, i) ∈ m :=
  imGet_mem (h : imGet m k = some i)

theorem dmGet_cons (e : Date × NodeIndex) (m : List (Date × NodeIndex)) (key : Date) :
    dmGet (e :: m) key = if e.1 = key then some e.2 else dmGet m key := by
  by_cases h : e.1 = key <;> simp [dmGet, List.find?, h]

theorem dmInsert_eq_cases (m : List (Date × NodeIndex)) (k : Date) (v : NodeIndex) :
    ∀ x ∈ dmInsert m k v, x = (k, v) ∨ x ∈ m := by
  induction m with
  | nil =>
    intro x hx
    rw [show dmInsert [] k v = [(k, v)] from rfl, List.mem_singleton] at hx
    exact Or.inl hx
  | cons e rest ih =>
    intro x hx
    rw [show dmInsert (e :: rest) k v = if k < e.1 then (k, v) :: e :: rest
        else if k = e.1 then (k, v) :: rest else e :: dmInsert rest k v from rfl] at hx
    by_cases h1 : k < e.1
    · rw [if_pos h1, List.mem_cons] at hx
      rcases hx with hx | hx
      · exact Or.inl hx
      · exact Or.inr hx
    · by_cases h2 : k = e.1
      · rw [if_neg h1, if_pos h2, List.mem_cons] at hx
        rcases hx with hx | hx
        · exact Or.inl hx
        · exact Or.inr (List.mem_cons.mpr (Or.inr hx))
      · rw [if_neg h1, if_neg h2, List.mem_cons] at hx
        rcases hx with hx | hx
        · exact Or.inr (List.mem_cons.mpr (Or.inl hx))
        · rcases ih x hx with h3 | h3
          · exact Or.inl h3
          · exact Or.inr (List.mem_cons.mpr (Or.inr h3))

theorem dmInsert_mem {m : List (Date × NodeIndex)} {k : Date} {v : NodeIndex}
    {x : Date × NodeIndex} (h : x ∈ dmInsert m k v) : x = (k, v) ∨ x ∈ m :=
  dmInsert_eq_cases m k v x h

theorem dmGet_dmInsert (m : List (Date × NodeIndex)) (k : Date) (v : NodeIndex)
    (key : Date) :
    dmGet (dmInsert m k v) key = if k = key then some v else dmGet m key := by
  induction m with
  | nil =>
    show dmGet [(k, v)] key = _
    rw [dmGet_cons]
  | cons e rest ih =>
    by_cases h1 : k < e.1
    · show dmGet (if k < e.1 then (k, v) :: e :: rest
        else if k = e.1 then (k, v) :: rest else e :: dmInsert rest k v) key = _
      rw [if_pos h1, dmGet_cons]
    · by_cases h2 : k = e.1
      · show dmGet (if k < e.1 then (k, v) :: e :: rest
          else if k = e.1 then (k, v) :: rest else e :: dmInsert rest k v) key = _
        rw [if_neg h1, if_pos h2, dmGet_cons, dmGet_cons]
        by_cases h : k = key
        · simp [h]
        · have he : ¬ e.1 = key := fun hc => h (h2.trans hc)
          simp [h, he]
      · show dmGet (if k < e.1 then (k, v) :: e :: rest
          else if k = e.1 then (k, v) :: rest else e :: dmInsert rest k v) key = _
        rw [if_neg h1, if_neg h2, dmGet_cons, ih, dmGet_cons]
        by_cases he : e.1 = key
        · have hk : ¬ k = key := fun hc => h2 (hc.trans he.symm)
          simp [he, hk]
        · simp [he]

/-! ### Small list helpers -/

theorem getD_append {α : Type} (l l2 : List α) (i : Nat) (d : α) (h : i < l.length) :
    (l ++ l2).getD i d = l.getD i d := by
  simp [List.getD_eq_getElem?_getD, List.getElem?_append_left h]

theorem getD_set_self {α : Type} (l : List α) (i : Nat) (a d : α) (h : i < l.length) :
    (l.set i a).getD i d = a := by
  simp [List.getD_eq_getElem?_getD, List.getElem?_set, h]

theorem getD_set_ne {α : Type} (l : List α) (i j : Nat) (a d : α) (h : i ≠ j) :
    (l.set i a).getD j d = l.getD j d := by
  simp [List.getD_eq_getElem?_getD, List.getElem?_set_ne h]

theorem getElem?_snoc_cases {α : Type} {l : List α} {a x : α} {i : Nat}
    (h : (l ++ [a])[i]? = some x) :
    (i < l.length ∧ l[i]? = some x) ∨ (i = l.length ∧ x = a) := by
  by_cases hi : i < l.length
  · exact Or.inl ⟨hi, by rwa [List.getElem?_append_left hi] at h⟩
  · have hle : l.length ≤ i := Nat.le_of_not_lt hi
    rw [List.getElem?_append_right hle] at h
    have : i - l.length = 0 := by
      rcases Nat.lt_or_ge (i - l.length) 1 with h1 | h1
      · omega
      · rw [List.getElem?_eq_none (by simpa using h1)] at h; cases h
    rw [this] at h
    simp at h
    right
    exact ⟨by omega, h.symm⟩

/-! ### The graph invariant -/

/-- The internal consistency invariant of `ScheduleGraph`, preserved by every
public construction operation:
* `inc_len` — the incidence list has one entry per node (claim C1);
* the five `*_sound`/`*_complete` pairs — every index entry points at a node
  of the right kind carrying its key, and every keyed node is indexed at its
  own position (at most one node per key, claim C8);
* `edges_valid` — every hyperedge references only existing nodes;
* `edges_incident` — every hyperedge except the `Assign(None)` ones built by
  `add_assignment_work_order` (the only edges the public API creates without
  going through `add_edge`) is registered in the incidence entry of every
  node it references (claim C9). -/
structure Inv (g : ScheduleGraph) : Prop where
  inc_len : g.incidence_list.length = g.nodes.length
  tech_sound : ∀ p ∈ g.technician_indices, g.nodes[p.2]? = some (.technician p.1)
  wo_sound : ∀ p ∈ g.work_order_indices, g.nodes[p.2]? = some (.workOrder p.1)
  period_sound : ∀ p ∈ g.period_indices, g.nodes[p.2]? = some (.period p.1)
  skill_sound : ∀ p ∈ g.skill_indices, g.nodes[p.2]? = some (.skill p.1)
  day_sound : ∀ p ∈ g.day_indices, g.nodes[p.2]? = some (.day p.1)
  tech_complete : ∀ i k, g.nodes[i]? = some (.technician k) →
    imGet g.technician_indices k = some i
  wo_complete : ∀ i k, g.nodes[i]? = some (.workOrder k) →
    imGet g.work_order_indices k = some i
  period_complete : ∀ i k, g.nodes[i]? = some (.period k) →
    imGet g.period_indices k = some i
  skill_complete : ∀ i k, g.nodes[i]? = some (.skill k) →
    imGet g.skill_indices k = some i
  day_complete : ∀ i k, g.nodes[i]? = some (.day k) →
    dmGet g.day_indices k = some i
  edges_valid : ∀ e ∈ g.hyperedges, ∀ n ∈ e.nodes, n < g.nodes.length
  edges_incident : ∀ ei he, g.hyperedges[ei]? = some he →
    he.edge_type ≠ .assign none → ∀ n ∈ he.nodes, ei ∈ g.incidence_list.getD n []

theorem inv_new : Inv ScheduleGraph.new := by
  constructor <;> simp [ScheduleGraph.new]

/-! ### Characterizing `add_node` -/

theorem insertIndex_nodes (g : ScheduleGraph) (node : Node) (i : NodeIndex) :
    (g.insertIndex node i).nodes = g.nodes := by
  cases node <;> rfl

theorem insertIndex_hyperedges (g : ScheduleGraph) (node : Node) (i : NodeIndex) :
    (g.insertIndex node i).hyperedges = g.hyperedges := by
  cases node <;> rfl

theorem insertIndex_incidence (g : ScheduleGraph) (node : Node) (i : NodeIndex) :
    (g.insertIndex node i).incidence_list = g.incidence_list := by
  cases node <;> rfl

theorem add_node_eq {g : ScheduleGraph} {node : Node} {g' : ScheduleGraph} {i : NodeIndex}
    (h : g.add_node node = some (g', i)) :
    g.indexLookup node = none ∧ i = g.nodes.length ∧
    g'.nodes = g.nodes ++ [node] ∧
    g'.incidence_list = g.incidence_list ++ [[]] ∧
    g'.hyperedges = g.hyperedges ∧
    g'.technician_indices = (g.insertIndex node i).technician_indices ∧
    g'.work_order_indices = (g.insertIndex node i).work_order_indices ∧
    g'.period_indices = (g.insertIndex node i).period_indices ∧
    g'.skill_indices = (g.insertIndex node i).skill_indices ∧
    g'.day_indices = (g.insertIndex node i).day_indices := by
  unfold ScheduleGraph.add_node at h
  cases hl : g.indexLookup node with
  | some x => rw [hl] at h; simp at h
  | none =>
    rw [hl] at h
    simp only [Option.some.injEq, Prod.mk.injEq] at h
    obtain ⟨hg, hi⟩ := h
    subst hi
    subst hg
    refine ⟨rfl, rfl, ?_, ?_, ?_, rfl, rfl, rfl, rfl, rfl⟩
    · simp [insertIndex_nodes]
    · simp [insertIndex_incidence]
    · simp [insertIndex_hyperedges]

/-! ### Characterizing `add_edge` -/

theorem add_edge_nodes (g : ScheduleGraph) (ty : EdgeType) (ns : List NodeIndex) :
    (g.add_edge ty ns).1.nodes = g.nodes := rfl

theorem add_edge_hyperedges (g : ScheduleGraph) (ty : EdgeType) (ns : List NodeIndex) :
    (g.add_edge ty ns).1.hyperedges =
      g.hyperedges ++ [{ edge_type := ty, nodes := ns }] := rfl

theorem add_edge_idx (g : ScheduleGraph) (ty : EdgeType) (ns : List NodeIndex) :
    (g.add_edge ty ns).2 = g.hyperedges.length := rfl

theorem add_edge_maps (g : ScheduleGraph) (ty : EdgeType) (ns : List NodeIndex) :
    (g.add_edge ty ns).1.technician_indices = g.technician_indices ∧
    (g.add_edge ty ns).1.work_order_indices = g.work_order_indices ∧
    (g.add_edge ty ns).1.period_indices = g.period_indices ∧
    (g.add_edge ty ns).1.skill_indices = g.skill_indices ∧
    (g.add_edge ty ns).1.day_indices = g.day_indices :=
  ⟨rfl, rfl, rfl, rfl, rfl⟩

theorem add_edge_incidence (g : ScheduleGraph) (ty : EdgeType) (ns : List NodeIndex) :
    (g.add_edge ty ns).1.incidence_list =
      ns.foldl (fun acc n => acc.set n (acc.getD n [] ++ [g.hyperedges.length]))
        g.incidence_list := rfl

theorem incPush_length (e : EdgeIndex) :
    ∀ (ns : List NodeIndex) (acc : List (List EdgeIndex)),
    (ns.foldl (fun acc n => acc.set n (acc.getD n [] ++ [e])) acc).length = acc.length := by
  intro ns
  induction ns with
  | nil => intro acc; rfl
  | cons n rest ih => intro acc; rw [List.foldl_cons, ih, List.length_set]

theorem incPush_persist (e : EdgeIndex) :
    ∀ (ns : List NodeIndex) (acc : List (List EdgeIndex)) (m : Nat) (x : EdgeIndex),
    x ∈ acc.getD m [] →
    x ∈ (ns.foldl (fun acc n => acc.set n (acc.getD n [] ++ [e])) acc).getD m [] := by
  intro ns
  induction ns with
  | nil => intro acc m x h; exact h
  | cons n rest ih =>
    intro acc m x h
    rw [List.foldl_cons]
    apply ih
    by_cases hm : n = m
    · subst hm
      by_cases hlt : n < acc.length
      · rw [getD_set_self _ _ _ _ hlt]; exact List.mem_append_left _ h
      · rw [List.set_eq_of_length_le (Nat.le_of_not_lt hlt)]; exact h
    · rw [getD_set_ne _ _ _ _ _ hm]; exact h

theorem incPush_mem (e : EdgeIndex) :
    ∀ (ns : List NodeIndex) (acc : List (List EdgeIndex)) (n : NodeIndex),
    n ∈ ns → n < acc.length →
    e ∈ (ns.foldl (fun acc n => acc.set n (acc.getD n [] ++ [e])) acc).getD n [] := by
  intro ns
  induction ns with
  | nil => intro acc n h; cases h
  | cons n0 rest ih =>
    intro acc n hmem hlt
    rw [List.foldl_cons]
    rcases List.mem_cons.mp hmem with h | h
    · subst h
      apply incPush_persist
      rw [getD_set_self _ _ _ _ hlt]
      exact List.mem_append_right _ (List.mem_singleton.mpr rfl)
    · exact ih _ n h (by rw [List.length_set]; exact hlt)

theorem inv_add_edge {g : ScheduleGraph} {ty : EdgeType} {ns : List NodeIndex}
    (hInv : Inv g) (hval : ∀ n ∈ ns, n < g.nodes.length) :
    Inv (g.add_edge ty ns).1 := by
  obtain ⟨hm1, hm2, hm3, hm4, hm5⟩ := add_edge_maps g ty ns
  constructor
  · rw [add_edge_incidence, add_edge_nodes, incPush_length]; exact hInv.inc_len
  · rw [hm1, add_edge_nodes]; exact hInv.tech_sound
  · rw [hm2, add_edge_nodes]; exact hInv.wo_sound
  · rw [hm3, add_edge_nodes]; exact hInv.period_sound
  · rw [hm4, add_edge_nodes]; exact hInv.skill_sound
  · rw [hm5, add_edge_nodes]; exact hInv.day_sound
  · rw [hm1, add_edge_nodes]; exact hInv.tech_complete
  · rw [hm2, add_edge_nodes]; exact hInv.wo_complete
  · rw [hm3, add_edge_nodes]; exact hInv.period_complete
  · rw [hm4, add_edge_nodes]; exact hInv.skill_complete
  · rw [hm5, add_edge_nodes]; exact hInv.day_complete
  · rw [add_edge_hyperedges, add_edge_nodes]
    intro e he n hn
    rcases List.mem_append.mp he with h | h
    · exact hInv.edges_valid e h n hn
    · rw [List.mem_singleton] at h
      subst h
      exact hval n hn
  · rw [add_edge_hyperedges, add_edge_incidence]
    intro ei he hsome hty n hn
    rcases getElem?_snoc_cases hsome with ⟨hlt, h2⟩ | ⟨hi, h2⟩
    · exact incPush_persist _ _ _ _ _ (hInv.edges_incident ei he h2 hty n hn)
    · subst hi
      subst h2
      exact incPush_mem _ _ _ _ hn (by rw [hInv.inc_len]; exact hval n hn)

/-! ### Invariant preservation by `add_node` -/

theorem sound_snoc {α : Type} {M : List (α × Nat)} {nodes : List Node} {node : Node}
    {f : α → Node} (h : ∀ p ∈ M, nodes[p.2]? = some (f p.1)) :
    ∀ p ∈ M, (nodes ++ [node])[p.2]? = some (f p.1) := by
  intro p hp
  have h2 := h p hp
  have hlt : p.2 < nodes.length := (List.getElem?_eq_some.mp h2).1
  rw [List.getElem?_append_left hlt]
  exact h2

theorem complete_snoc_other {α : Type} {look : α → Option Nat}
    {nodes : List Node} {node : Node} {f : α → Node}
    (hold : ∀ i k, nodes[i]? = some (f k) → look k = some i)
    (hnode : ∀ k, node ≠ f k) :
    ∀ i k, (nodes ++ [node])[i]? = some (f k) → look k = some i := by
  intro i k h
  rcases getElem?_snoc_cases h with ⟨_, h2⟩ | ⟨_, h2⟩
  · exact hold i k h2
  · exact absurd h2.symm (hnode k)

theorem complete_snoc_self {α : Type} [DecidableEq α] {M : List (α × Nat)}
    {nodes : List Node} {f : α → Node} (finj : ∀ a b, f a = f b → a = b) (k0 : α)
    (hold : ∀ i k, nodes[i]? = some (f k) → imGet M k = some i)
    (habs : imGet M k0 = none) :
    ∀ i k, (nodes ++ [f k0])[i]? = some (f k) →
      imGet ((k0, nodes.length) :: M) k = some i := by
  intro i k h
  rcases getElem?_snoc_cases h with ⟨_, h2⟩ | ⟨hi, h2⟩
  · have h3 := hold i k h2
    rw [imGet_cons]
    by_cases hk : k0 = k
    · subst hk; rw [habs] at h3; cases h3
    · rw [if_neg hk]; exact h3
  · have hk : k = k0 := finj _ _ h2
    subst hk
    subst hi
    rw [imGet_cons, if_pos rfl]

theorem complete_snoc_day {M : List (Date × Nat)} {nodes : List Node} (k0 : Date)
    (hold : ∀ i k, nodes[i]? = some (Node.day k) → dmGet M k = some i)
    (habs : dmGet M k0 = none) :
    ∀ i k, (nodes ++ [Node.day k0])[i]? = some (Node.day k) →
      dmGet (dmInsert M k0 nodes.length) k = some i := by
  intro i k h
  rcases getElem?_snoc_cases h with ⟨_, h2⟩ | ⟨hi, h2⟩
  · have h3 := hold i k h2
    rw [dmGet_dmInsert]
    by_cases hk : k0 = k
    · subst hk; rw [habs] at h3; cases h3
    · rw [if_neg hk]; exact h3
  · have hk : k = k0 := by cases h2; rfl
    subst hk
    subst hi
    rw [dmGet_dmInsert, if_pos rfl]

theorem getD_snoc_mem {l : List (List EdgeIndex)} {a : List EdgeIndex} {n : Nat}
    {x : EdgeIndex} (h : x ∈ l.getD n []) : x ∈ (l ++ [a]).getD n [] := by
  by_cases hlt : n < l.length
  · rwa [getD_append _ _ _ _ hlt]
  · rw [List.getD_eq_getElem?_getD, List.getElem?_eq_none (le_of_not_lt hlt)] at h
    cases h

theorem valid_snoc {nodes : List Node} {node : Node} {hes : List HyperEdge}
    (h : ∀ e ∈ hes, ∀ n ∈ e.nodes, n < nodes.length) :
    ∀ e ∈ hes, ∀ n ∈ e.nodes, n < (nodes ++ [node]).length := by
  intro e he n hn
  have h1 := h e he n hn
  have h2 : (nodes ++ [node]).length = nodes.length + 1 := by simp
  rw [h2]
  exact Nat.lt_succ_of_lt h1

theorem inv_add_node {g : ScheduleGraph} {node : Node} {g' : ScheduleGraph} {i : NodeIndex}
    (hInv : Inv g) (h : g.add_node node = some (g', i)) : Inv g' := by
  obtain ⟨hlook, hi, hnodes, hinc, hedges, ht, hw, hp, hs, hd⟩ := add_node_eq h
  subst hi
  have hlen : g'.incidence_list.length = g'.nodes.length := by
    rw [hinc, hnodes]; simp [hInv.inc_len]
  have hvalid : ∀ e ∈ g'.hyperedges, ∀ n ∈ e.nodes, n < g'.nodes.length := by
    rw [hedges, hnodes]; exact valid_snoc hInv.edges_valid
  have hincident : ∀ ei he, g'.hyperedges[ei]? = some he →
      he.edge_type ≠ .assign none → ∀ n ∈ he.nodes, ei ∈ g'.incidence_list.getD n [] := by
    rw [hedges, hinc]
    intro ei he hsome hty n hn
    exact getD_snoc_mem (hInv.edges_incident ei he hsome hty n hn)
  cases node with
  | technician w =>
    simp only [ScheduleGraph.insertIndex] at ht hw hp hs hd
    simp only [ScheduleGraph.indexLookup] at hlook
    refine ⟨hlen, ?_, ?_, ?_, ?_, ?_, ?_, ?_, ?_, ?_, ?_, hvalid, hincident⟩
    · rw [ht, hnodes]
      intro p hp2
      rcases List.mem_cons.mp hp2 with h2 | h2
      · subst h2; exact List.getElem?_concat_length g.nodes _
      · exact sound_snoc hInv.tech_sound p h2
    · rw [hw, hnodes]; exact sound_snoc hInv.wo_sound
    · rw [hp, hnodes]; exact sound_snoc hInv.period_sound
    · rw [hs, hnodes]; exact sound_snoc hInv.skill_sound
    · rw [hd, hnodes]; exact sound_snoc hInv.day_sound
    · rw [ht, hnodes]
      exact complete_snoc_self (f := Node.technician) (fun a b hab => by cases hab; rfl)
        w hInv.tech_complete hlook
    · rw [hw, hnodes]
      exact complete_snoc_other hInv.wo_complete (fun k hk => Node.noConfusion hk)
    · rw [hp, hnodes]
      exact complete_snoc_other hInv.period_complete (fun k hk => Node.noConfusion hk)
    · rw [hs, hnodes]
      exact complete_snoc_other hInv.skill_complete (fun k hk => Node.noConfusion hk)
    · rw [hd, hnodes]
      exact complete_snoc_other hInv.day_complete (fun k hk => Node.noConfusion hk)
  | workOrder w =>
    simp only [ScheduleGraph.insertIndex] at ht hw hp hs hd
    simp only [ScheduleGraph.indexLookup] at hlook
    refine ⟨hlen, ?_, ?_, ?_, ?_, ?_, ?_, ?_, ?_, ?_, ?_, hvalid, hincident⟩
    · rw [ht, hnodes]; exact sound_snoc hInv.tech_sound
    · rw [hw, hnodes]
      intro p hp2
      rcases List.mem_cons.mp hp2 with h2 | h2
      · subst h2; exact List.getElem?_concat_length g.nodes _
      · exact sound_snoc hInv.wo_sound p h2
    · rw [hp, hnodes]; exact sound_snoc hInv.period_sound
    · rw [hs, hnodes]; exact sound_snoc hInv.skill_sound
    · rw [hd, hnodes]; exact sound_snoc hInv.day_sound
    · rw [ht, hnodes]
      exact complete_snoc_other hInv.tech_complete (fun k hk => Node.noConfusion hk)
    · rw [hw, hnodes]
      exact complete_snoc_self (f := Node.workOrder) (fun a b hab => by cases hab; rfl)
        w hInv.wo_complete hlook
    · rw [hp, hnodes]
      exact complete_snoc_other hInv.period_complete (fun k hk => Node.noConfusion hk)
    · rw [hs, hnodes]
      exact complete_snoc_other hInv.skill_complete (fun k hk => Node.noConfusion hk)
    · rw [hd, hnodes]
      exact complete_snoc_other hInv.day_complete (fun k hk => Node.noConfusion hk)
  | activity a =>
    simp only [ScheduleGraph.insertIndex] at ht hw hp hs hd
    refine ⟨hlen, ?_, ?_, ?_, ?_, ?_, ?_, ?_, ?_, ?_, ?_, hvalid, hincident⟩
    · rw [ht, hnodes]; exact sound_snoc hInv.tech_sound
    · rw [hw, hnodes]; exact sound_snoc hInv.wo_sound
    · rw [hp, hnodes]; exact sound_snoc hInv.period_sound
    · rw [hs, hnodes]; exact sound_snoc hInv.skill_sound
    · rw [hd, hnodes]; exact sound_snoc hInv.day_sound
    · rw [ht, hnodes]
      exact complete_snoc_other hInv.tech_complete (fun k hk => Node.noConfusion hk)
    · rw [hw, hnodes]
      exact complete_snoc_other hInv.wo_complete (fun k hk => Node.noConfusion hk)
    · rw [hp, hnodes]
      exact complete_snoc_other hInv.period_complete (fun k hk => Node.noConfusion hk)
    · rw [hs, hnodes]
      exact complete_snoc_other hInv.skill_complete (fun k hk => Node.noConfusion hk)
    · rw [hd, hnodes]
      exact complete_snoc_other hInv.day_complete (fun k hk => Node.noConfusion hk)
  | period p =>
    simp only [ScheduleGraph.insertIndex] at ht hw hp hs hd
    simp only [ScheduleGraph.indexLookup] at hlook
    refine ⟨hlen, ?_, ?_, ?_, ?_, ?_, ?_, ?_, ?_, ?_, ?_, hvalid, hincident⟩
    · rw [ht, hnodes]; exact sound_snoc hInv.tech_sound
    · rw [hw, hnodes]; exact sound_snoc hInv.wo_sound
    · rw [hp, hnodes]
      intro q hq2
      rcases List.mem_cons.mp hq2 with h2 | h2
      · subst h2; exact List.getElem?_concat_length g.nodes _
      · exact sound_snoc hInv.period_sound q h2
    · rw [hs, hnodes]; exact sound_snoc hInv.skill_sound
    · rw [hd, hnodes]; exact sound_snoc hInv.day_sound
    · rw [ht, hnodes]
      exact complete_snoc_other hInv.tech_complete (fun k hk => Node.noConfusion hk)
    · rw [hw, hnodes]
      exact complete_snoc_other hInv.wo_complete (fun k hk => Node.noConfusion hk)
    · rw [hp, hnodes]
      exact complete_snoc_self (f := Node.period) (fun a b hab => by cases hab; rfl)
        p hInv.period_complete hlook
    · rw [hs, hnodes]
      exact complete_snoc_other hInv.skill_complete (fun k hk => Node.noConfusion hk)
    · rw [hd, hnodes]
      exact complete_snoc_other hInv.day_complete (fun k hk => Node.noConfusion hk)
  | skill s =>
    simp only [ScheduleGraph.insertIndex] at ht hw hp hs hd
    simp only [ScheduleGraph.indexLookup] at hlook
    refine ⟨hlen, ?_, ?_, ?_, ?_, ?_, ?_, ?_, ?_, ?_, ?_, hvalid, hincident⟩
    · rw [ht, hnodes]; exact sound_snoc hInv.tech_sound
    · rw [hw, hnodes]; exact sound_snoc hInv.wo_sound
    · rw [hp, hnodes]; exact sound_snoc hInv.period_sound
    · rw [hs, hnodes]
      intro p hp2
      rcases List.mem_cons.mp hp2 with h2 | h2
      · subst h2; exact List.getElem?_concat_length g.nodes _
      · exact sound_snoc hInv.skill_sound p h2
    · rw [hd, hnodes]; exact sound_snoc hInv.day_sound
    · rw [ht, hnodes]
      exact complete_snoc_other hInv.tech_complete (fun k hk => Node.noConfusion hk)
    · rw [hw, hnodes]
      exact complete_snoc_other hInv.wo_complete (fun k hk => Node.noConfusion hk)
    · rw [hp, hnodes]
      exact complete_snoc_other hInv.period_complete (fun k hk => Node.noConfusion hk)
    · rw [hs, hnodes]
      exact complete_snoc_self (f := Node.skill) (fun a b hab => by cases hab; rfl)
        s hInv.skill_complete hlook
    · rw [hd, hnodes]
      exact complete_snoc_other hInv.day_complete (fun k hk => Node.noConfusion hk)
  | day d =>
    simp only [ScheduleGraph.insertIndex] at ht hw hp hs hd
    simp only [ScheduleGraph.indexLookup] at hlook
    refine ⟨hlen, ?_, ?_, ?_, ?_, ?_, ?_, ?_, ?_, ?_, ?_, hvalid, hincident⟩
    · rw [ht, hnodes]; exact sound_snoc hInv.tech_sound
    · rw [hw, hnodes]; exact sound_snoc hInv.wo_sound
    · rw [hp, hnodes]; exact sound_snoc hInv.period_sound
    · rw [hs, hnodes]; exact sound_snoc hInv.skill_sound
    · rw [hd, hnodes]
      intro p hp2
      rcases dmInsert_mem hp2 with h2 | h2
      · subst h2; exact List.getElem?_concat_length g.nodes _
      · exact sound_snoc hInv.day_sound p h2
    · rw [ht, hnodes]
      exact complete_snoc_other hInv.tech_complete (fun k hk => Node.noConfusion hk)
    · rw [hw, hnodes]
      exact complete_snoc_other hInv.wo_complete (fun k hk => Node.noConfusion hk)
    · rw [hp, hnodes]
      exact complete_snoc_other hInv.period_complete (fun k hk => Node.noConfusion hk)
    · rw [hs, hnodes]
      exact complete_snoc_other hInv.skill_complete (fun k hk => Node.noConfusion hk)
    · rw [hd, hnodes]
      exact complete_snoc_day d hInv.day_complete hlook

/-! ### Invariant preservation by the public operations -/

theorem lt_of_getElem?_some {α : Type} {l : List α} {i : Nat} {x : α}
    (h : l[i]? = some x) : i < l.length :=
  (List.getElem?_eq_some.mp h).1

theorem getElem?_append_some {α : Type} {l l2 : List α} {j : Nat} {x : α}
    (h : l[j]? = some x) : (l ++ l2)[j]? = some x := by
  rw [List.getElem?_append_left (lt_of_getElem?_some h)]
  exact h

theorem inv_reinsert_day {g : ScheduleGraph} {d : Date} {i : NodeIndex} (hInv : Inv g)
    (hnode : g.nodes[i]? = some (.day d)) :
    Inv { g with day_indices := dmInsert g.day_indices d i } := by
  refine ⟨hInv.inc_len, hInv.tech_sound, hInv.wo_sound, hInv.period_sound,
    hInv.skill_sound, ?_, hInv.tech_complete, hInv.wo_complete, hInv.period_complete,
    hInv.skill_complete, ?_, hInv.edges_valid, hInv.edges_incident⟩
  · intro p hp
    rcases dmInsert_mem hp with h2 | h2
    · subst h2; exact hnode
    · exact hInv.day_sound p h2
  · intro j k hj
    rw [dmGet_dmInsert]
    by_cases hk : d = k
    · subst hk
      have h1 := hInv.day_complete j d hj
      have h2 := hInv.day_complete i d hnode
      rw [h1] at h2
      rw [if_pos rfl]
      exact h2.symm
    · rw [if_neg hk]; exact hInv.day_complete j k hj

theorem inv_recons_period {g : ScheduleGraph} {p : Period} {i : NodeIndex} (hInv : Inv g)
    (hnode : g.nodes[i]? = some (.period p)) :
    Inv { g with period_indices := (p, i) :: g.period_indices } := by
  refine ⟨hInv.inc_len, hInv.tech_sound, hInv.wo_sound, ?_, hInv.skill_sound,
    hInv.day_sound, hInv.tech_complete, hInv.wo_complete, ?_, hInv.skill_complete,
    hInv.day_complete, hInv.edges_valid, hInv.edges_incident⟩
  · intro q hq
    rcases List.mem_cons.mp hq with h2 | h2
    · subst h2; exact hnode
    · exact hInv.period_sound q h2
  · intro j k hj
    rw [imGet_cons]
    by_cases hk : p = k
    · subst hk
      have h1 := hInv.period_complete j p hj
      have h2 := hInv.period_complete i p hnode
      rw [h1] at h2
      rw [if_pos rfl]
      exact h2.symm
    · rw [if_neg hk]; exact hInv.period_complete j k hj

theorem inv_recons_wo {g : ScheduleGraph} {w : WorkOrderNumber} {i : NodeIndex}
    (hInv : Inv g) (hnode : g.nodes[i]? = some (.workOrder w)) :
    Inv { g with work_order_indices := (w, i) :: g.work_order_indices } := by
  refine ⟨hInv.inc_len, hInv.tech_sound, ?_, hInv.period_sound, hInv.skill_sound,
    hInv.day_sound, hInv.tech_complete, ?_, hInv.period_complete, hInv.skill_complete,
    hInv.day_complete, hInv.edges_valid, hInv.edges_incident⟩
  · intro q hq
    rcases List.mem_cons.mp hq with h2 | h2
    · subst h2; exact hnode
    · exact hInv.wo_sound q h2
  · intro j k hj
    rw [imGet_cons]
    by_cases hk : w = k
    · subst hk
      have h1 := hInv.wo_complete j w hj
      have h2 := hInv.wo_complete i w hnode
      rw [h1] at h2
      rw [if_pos rfl]
      exact h2.symm
    · rw [if_neg hk]; exact hInv.wo_complete j k hj

theorem inv_add_skill {g : ScheduleGraph} {s : Skill} {g' : ScheduleGraph} {i : NodeIndex}
    (hInv : Inv g) (h : g.add_skill s = some (g', i)) : Inv g' := by
  unfold ScheduleGraph.add_skill at h
  cases hl : imGet g.skill_indices s with
  | some x =>
    rw [hl] at h
    simp only [Option.some.injEq, Prod.mk.injEq] at h
    obtain ⟨h1, _⟩ := h
    subst h1
    exact hInv
  | none =>
    rw [hl] at h
    exact inv_add_node hInv h

theorem inv_addDaysLoop : ∀ (ds : List Date) (g g' : ScheduleGraph), Inv g →
    ScheduleGraph.addDaysLoop g ds = some g' → Inv g' := by
  intro ds
  induction ds with
  | nil =>
    intro g g' hInv h
    simp only [ScheduleGraph.addDaysLoop, Option.some.injEq] at h
    subst h
    exact hInv
  | cons d rest ih =>
    intro g g' hInv h
    unfold ScheduleGraph.addDaysLoop at h
    cases hn : g.add_node (.day d) with
    | none => rw [hn] at h; cases h
    | some p =>
      obtain ⟨g1, dn⟩ := p
      rw [hn] at h
      have hInv1 := inv_add_node hInv hn
      have hnode : g1.nodes[dn]? = some (.day d) := by
        obtain ⟨_, hi, hnodes, _⟩ := add_node_eq hn
        subst hi
        rw [hnodes]
        exact List.getElem?_concat_length _ _
      exact ih _ _ (inv_reinsert_day hInv1 hnode) h

theorem inv_add_period {g : ScheduleGraph} {p : Period} {g' : ScheduleGraph}
    {r : Except ScheduleGraphErrors NodeIndex}
    (hInv : Inv g) (h : g.add_period p = some (g', r)) : Inv g' := by
  unfold ScheduleGraph.add_period at h
  by_cases hc : (imGet g.period_indices p).isSome
  · rw [if_pos hc] at h
    simp only [Option.some.injEq, Prod.mk.injEq] at h
    obtain ⟨h1, _⟩ := h
    subst h1
    exact hInv
  · rw [if_neg hc] at h
    dsimp only at h
    cases hdl : ScheduleGraph.addDaysLoop g (ScheduleGraph.daysInPeriod p.start_date) with
    | none => rw [hdl] at h; cases h
    | some g1 =>
      rw [hdl] at h
      dsimp only at h
      cases hn : g1.add_node (.period p) with
      | none => rw [hn] at h; cases h
      | some q =>
        obtain ⟨g2, ni⟩ := q
        rw [hn] at h
        simp only [Option.some.injEq, Prod.mk.injEq] at h
        obtain ⟨h1, _⟩ := h
        subst h1
        have hInv1 := inv_addDaysLoop _ _ _ hInv hdl
        have hInv2 := inv_add_node hInv1 hn
        have hnode : g2.nodes[ni]? = some (.period p) := by
          obtain ⟨_, hi, hnodes, _⟩ := add_node_eq hn
          subst hi
          rw [hnodes]
          exact List.getElem?_concat_length _ _
        exact inv_recons_period hInv2 hnode

theorem inv_work_order_loop :
    ∀ (acts : List Activity) (g : ScheduleGraph) (rels : List ActivityRelation)
      (woIdx prev ai : Nat) (g' : ScheduleGraph) (r : Except ScheduleGraphErrors Unit),
    Inv g → woIdx < g.nodes.length → (ai ≠ 0 → prev < g.nodes.length) →
    ScheduleGraph.work_order_loop g woIdx rels prev ai acts = some (g', r) →
    Inv g' ∧ (∀ (j : Nat) (x : Node), g.nodes[j]? = some x → g'.nodes[j]? = some x) ∧
      g.nodes.length ≤ g'.nodes.length := by
  intro acts
  induction acts with
  | nil =>
    intro g rels woIdx prev ai g' r hInv hwo hprev h
    simp only [ScheduleGraph.work_order_loop, Option.some.injEq, Prod.mk.injEq] at h
    obtain ⟨h1, _⟩ := h
    subst h1
    exact ⟨hInv, fun j x hx => hx, le_refl g.nodes.length⟩
  | cons a rest ih =>
    intro g rels woIdx prev ai g' r hInv hwo hprev h
    unfold ScheduleGraph.work_order_loop at h
    cases hn : g.add_node (.activity ⟨a.activity_number, a.number_of_people⟩) with
    | none => rw [hn] at h; cases h
    | some q =>
      obtain ⟨g1, actIdx⟩ := q
      rw [hn] at h
      dsimp only at h
      obtain ⟨hlook, hi, hnodes1, hinc1, hedges1, ht1, hw1, hp1, hs1, hd1⟩ := add_node_eq hn
      have hInv1 := inv_add_node hInv hn
      have hg1len : g1.nodes.length = g.nodes.length + 1 := by rw [hnodes1]; simp
      have hpres1 : ∀ (j : Nat) (x : Node), g.nodes[j]? = some x → g1.nodes[j]? = some x := by
        intro j x hx; rw [hnodes1]; exact getElem?_append_some hx
      cases hsk : imGet g1.skill_indices a.resource with
      | none =>
        rw [hsk] at h
        simp only [Option.some.injEq, Prod.mk.injEq] at h
        obtain ⟨h1, _⟩ := h
        subst h1
        exact ⟨hInv1, hpres1, by rw [hg1len]; exact Nat.le_succ _⟩
      | some skillIdx =>
        rw [hsk] at h
        dsimp only at h
        have hskill_lt : skillIdx < g1.nodes.length :=
          lt_of_getElem?_some (hInv1.skill_sound _ (imGet_mem hsk))
        have hwo1 : woIdx < g1.nodes.length := by
          rw [hg1len]; exact Nat.lt_succ_of_lt hwo
        have hact1 : actIdx < g1.nodes.length := by
          rw [hg1len, hi]; exact Nat.lt_succ_self _
        have hInv3 : Inv ((g1.add_edge .contains [woIdx, actIdx]).1.add_edge .requires
            [actIdx, skillIdx]).1 := by
          apply inv_add_edge
          · apply inv_add_edge hInv1
            intro n hn2
            rcases List.mem_cons.mp hn2 with h2 | h2
            · subst h2; exact hwo1
            · rw [List.mem_singleton] at h2; subst h2; exact hact1
          · rw [add_edge_nodes]
            intro n hn2
            rcases List.mem_cons.mp hn2 with h2 | h2
            · subst h2; exact hact1
            · rw [List.mem_singleton] at h2; subst h2; exact hskill_lt
        have hg3nodes : ((g1.add_edge .contains [woIdx, actIdx]).1.add_edge .requires
            [actIdx, skillIdx]).1.nodes = g1.nodes := rfl
        by_cases hai : ai = 0
        · subst hai
          rw [if_neg (show ¬((0 : Nat) ≠ 0) from fun hc => hc rfl)] at h
          dsimp only at h
          obtain ⟨hInvFin, hpresFin, hlenFin⟩ := ih _ rels woIdx actIdx 1 g' r hInv3
            (by rw [hg3nodes]; exact hwo1)
            (fun _ => by rw [hg3nodes]; exact hact1) h
          refine ⟨hInvFin, ?_, ?_⟩
          · intro j x hx
            exact hpresFin j x (by rw [hg3nodes]; exact hpres1 j x hx)
          · rw [hg3nodes, hg1len] at hlenFin; omega
        · rw [if_pos hai] at h
          cases hrel : rels.get? (ai - 1) with
          | none => rw [hrel] at h; cases h
          | some rel =>
            rw [hrel] at h
            have hprev1 : prev < g1.nodes.length := by
              have := hprev hai; omega
            cases rel with
            | Postpone dt => dsimp only at h; cases h
            | StartStart =>
              dsimp only at h
              have hInv4 : Inv (((g1.add_edge .contains [woIdx, actIdx]).1.add_edge .requires
                  [actIdx, skillIdx]).1.add_edge .startStart [prev, actIdx]).1 := by
                apply inv_add_edge hInv3
                rw [hg3nodes]
                intro n hn2
                rcases List.mem_cons.mp hn2 with h2 | h2
                · subst h2; exact hprev1
                · rw [List.mem_singleton] at h2; subst h2; exact hact1
              obtain ⟨hInvFin, hpresFin, hlenFin⟩ := ih _ rels woIdx actIdx (ai + 1) g' r hInv4
                (by rw [add_edge_nodes, hg3nodes]; exact hwo1)
                (fun _ => by rw [add_edge_nodes, hg3nodes]; exact hact1) h
              refine ⟨hInvFin, ?_, ?_⟩
              · intro j x hx
                exact hpresFin j x (by rw [add_edge_nodes, hg3nodes]; exact hpres1 j x hx)
              · rw [add_edge_nodes, hg3nodes, hg1len] at hlenFin; omega
            | FinishStart =>
              dsimp only at h
              have hInv4 : Inv (((g1.add_edge .contains [woIdx, actIdx]).1.add_edge .requires
                  [actIdx, skillIdx]).1.add_edge .finishStart [prev, actIdx]).1 := by
                apply inv_add_edge hInv3
                rw [hg3nodes]
                intro n hn2
                rcases List.mem_cons.mp hn2 with h2 | h2
                · subst h2; exact hprev1
                · rw [List.mem_singleton] at h2; subst h2; exact hact1
              obtain ⟨hInvFin, hpresFin, hlenFin⟩ := ih _ rels woIdx actIdx (ai + 1) g' r hInv4
                (by rw [add_edge_nodes, hg3nodes]; exact hwo1)
                (fun _ => by rw [add_edge_nodes, hg3nodes]; exact hact1) h
              refine ⟨hInvFin, ?_, ?_⟩
              · intro j x hx
                exact hpresFin j x (by rw [add_edge_nodes, hg3nodes]; exact hpres1 j x hx)
              · rw [add_edge_nodes, hg3nodes, hg1len] at hlenFin; omega

theorem inv_add_work_order {g : ScheduleGraph} {wo : WorkOrder} {g' : ScheduleGraph}
    {r : Except ScheduleGraphErrors NodeIndex}
    (hInv : Inv g) (h : g.add_work_order wo = some (g', r)) : Inv g' := by
  unfold ScheduleGraph.add_work_order at h
  by_cases hc : ¬(wo.activities.all (fun activity =>
      g.skill_indices.any (fun e => decide (e.1 = activity.resource)))) = true
  · rw [if_pos hc] at h
    simp only [Option.some.injEq, Prod.mk.injEq] at h
    obtain ⟨h1, _⟩ := h
    subst h1
    exact hInv
  · rw [if_neg hc] at h
    cases hday : dmGet g.day_indices wo.basic_start_date with
    | none =>
      rw [hday] at h
      simp only [Option.some.injEq, Prod.mk.injEq] at h
      obtain ⟨h1, _⟩ := h
      subst h1
      exact hInv
    | some dayIdx =>
      rw [hday] at h
      dsimp only at h
      cases hwoi : imGet g.work_order_indices wo.work_order_number with
      | some x =>
        rw [hwoi] at h
        simp only [Option.some.injEq, Prod.mk.injEq] at h
        obtain ⟨h1, _⟩ := h
        subst h1
        exact hInv
      | none =>
        rw [hwoi] at h
        dsimp only at h
        cases hn : g.add_node (.workOrder wo.work_order_number) with
        | none => rw [hn] at h; cases h
        | some q =>
          obtain ⟨g1, woIdx⟩ := q
          rw [hn] at h
          dsimp only at h
          obtain ⟨hlook, hi, hnodes1, hinc1, hedges1, ht1, hw1, hp1, hs1, hd1⟩ := add_node_eq hn
          have hInv1 := inv_add_node hInv hn
          have hg1len : g1.nodes.length = g.nodes.length + 1 := by rw [hnodes1]; simp
          have hdaylt : dayIdx < g.nodes.length :=
            lt_of_getElem?_some (hInv.day_sound _ (dmGet_mem hday))
          have hInv2 : Inv (g1.add_edge .basicStart [woIdx, dayIdx]).1 := by
            apply inv_add_edge hInv1
            intro n hn2
            rcases List.mem_cons.mp hn2 with h2 | h2
            · subst h2; rw [hg1len, hi]; exact Nat.lt_succ_self _
            · rw [List.mem_singleton] at h2; subst h2
              rw [hg1len]; exact Nat.lt_succ_of_lt hdaylt
          cases hloop : ScheduleGraph.work_order_loop (g1.add_edge .basicStart
              [woIdx, dayIdx]).1 woIdx wo.activities_relations
              ScheduleGraph.usizeMaxSentinel 0 wo.activities with
          | none => rw [hloop] at h; cases h
          | some q2 =>
            obtain ⟨g3, lr⟩ := q2
            rw [hloop] at h
            obtain ⟨hInv3, hpres3, hlen3⟩ := inv_work_order_loop _ _ _ _ _ _ _ _ hInv2
              (by rw [add_edge_nodes, hg1len, hi]; exact Nat.lt_succ_self _)
              (fun hc2 => absurd rfl hc2) hloop
            cases lr with
            | error e =>
              dsimp only at h
              simp only [Option.some.injEq, Prod.mk.injEq] at h
              obtain ⟨h1, _⟩ := h
              subst h1
              exact hInv3
            | ok u =>
              dsimp only at h
              simp only [Option.some.injEq, Prod.mk.injEq] at h
              obtain ⟨h1, _⟩ := h
              subst h1
              have hwonode : g3.nodes[woIdx]? = some (.workOrder wo.work_order_number) := by
                apply hpres3
                rw [add_edge_nodes, hnodes1, hi]
                exact List.getElem?_concat_length _ _
              exact inv_recons_wo hInv3 hwonode

theorem findSome?_exists {α β : Type} {l : List α} {f : α → Option β} {b : β}
    (h : l.findSome? f = some b) : ∃ a ∈ l, f a = some b := by
  induction l with
  | nil => simp [List.findSome?] at h
  | cons x xs ih =>
    rw [List.findSome?_cons] at h
    cases hf : f x with
    | some y =>
      rw [hf] at h
      dsimp only at h
      exact ⟨x, List.mem_cons_self x xs, by rw [hf]; exact h⟩
    | none =>
      rw [hf] at h
      dsimp only at h
      obtain ⟨a, ha, hfa⟩ := ih h
      exact ⟨a, List.mem_cons_of_mem x ha, hfa⟩

theorem collectSkills_valid {g : ScheduleGraph} (hInv : Inv g) :
    ∀ (ss : List Skill) (l : List NodeIndex), ScheduleGraph.collectSkills g ss = .ok l →
    ∀ i ∈ l, i < g.nodes.length := by
  intro ss
  induction ss with
  | nil =>
    intro l h i hi
    simp only [ScheduleGraph.collectSkills, Except.ok.injEq] at h
    subst h
    cases hi
  | cons s rest ih =>
    intro l h i hi
    unfold ScheduleGraph.collectSkills at h
    cases hs : imGet g.skill_indices s with
    | none => rw [hs] at h; cases h
    | some j =>
      rw [hs] at h
      cases hr : ScheduleGraph.collectSkills g rest with
      | error e => rw [hr] at h; dsimp only [Except.map] at h; cases h
      | ok l2 =>
        rw [hr] at h
        dsimp only [Except.map] at h
        simp only [Except.ok.injEq] at h
        subst h
        rcases List.mem_cons.mp hi with h2 | h2
        · subst h2
          exact lt_of_getElem?_some (hInv.skill_sound _ (imGet_mem hs))
        · exact ih l2 hr i h2

theorem collectAvailabilityDays_valid {g : ScheduleGraph} (hInv : Inv g) :
    ∀ (ds : List Date) (l : List NodeIndex),
    ScheduleGraph.collectAvailabilityDays g ds = .ok l →
    ∀ i ∈ l, i < g.nodes.length := by
  intro ds
  induction ds with
  | nil =>
    intro l h i hi
    simp only [ScheduleGraph.collectAvailabilityDays, Except.ok.injEq] at h
    subst h
    cases hi
  | cons d rest ih =>
    intro l h i hi
    unfold ScheduleGraph.collectAvailabilityDays at h
    cases hs : dmGet g.day_indices d with
    | none => rw [hs] at h; cases h
    | some j =>
      rw [hs] at h
      cases hr : ScheduleGraph.collectAvailabilityDays g rest with
      | error e => rw [hr] at h; dsimp only [Except.map] at h; cases h
      | ok l2 =>
        rw [hr] at h
        dsimp only [Except.map] at h
        simp only [Except.ok.injEq] at h
        subst h
        rcases List.mem_cons.mp hi with h2 | h2
        · subst h2
          exact lt_of_getElem?_some (hInv.day_sound _ (dmGet_mem hs))
        · exact ih l2 hr i h2

theorem collectDayIndices_valid {g : ScheduleGraph} (hInv : Inv g) :
    ∀ (ds : List Date) (l : List NodeIndex),
    ScheduleGraph.collectDayIndices g ds = .ok l →
    ∀ i ∈ l, i < g.nodes.length := by
  intro ds
  induction ds with
  | nil =>
    intro l h i hi
    simp only [ScheduleGraph.collectDayIndices, Except.ok.injEq] at h
    subst h
    cases hi
  | cons d rest ih =>
    intro l h i hi
    unfold ScheduleGraph.collectDayIndices at h
    cases hs : dmGet g.day_indices d with
    | none => rw [hs] at h; cases h
    | some j =>
      rw [hs] at h
      cases hr : ScheduleGraph.collectDayIndices g rest with
      | error e => rw [hr] at h; dsimp only [Except.map] at h; cases h
      | ok l2 =>
        rw [hr] at h
        dsimp only [Except.map] at h
        simp only [Except.ok.injEq] at h
        subst h
        rcases List.mem_cons.mp hi with h2 | h2
        · subst h2
          exact lt_of_getElem?_some (hInv.day_sound _ (dmGet_mem hs))
        · exact ih l2 hr i h2

theorem technician_loop_valid {g : ScheduleGraph} {days : List Date} (hInv : Inv g) :
    ∀ (ts : List TechnicianId) (l : List NodeIndex),
    ScheduleGraph.technician_loop g days ts = .ok l →
    ∀ i ∈ l, i < g.nodes.length := by
  intro ts
  induction ts with
  | nil =>
    intro l h i hi
    simp only [ScheduleGraph.technician_loop, Except.ok.injEq] at h
    subst h
    cases hi
  | cons t rest ih =>
    intro l h i hi
    unfold ScheduleGraph.technician_loop at h
    cases hs : imGet g.technician_indices t with
    | none => rw [hs] at h; cases h
    | some j =>
      rw [hs] at h
      dsimp only at h
      by_cases hcov : ScheduleGraph.technicianCovered g j days
      · rw [if_pos hcov] at h
        cases hr : ScheduleGraph.technician_loop g days rest with
        | error e => rw [hr] at h; dsimp only [Except.map] at h; cases h
        | ok l2 =>
          rw [hr] at h
          dsimp only [Except.map] at h
          simp only [Except.ok.injEq] at h
          subst h
          rcases List.mem_cons.mp hi with h2 | h2
          · subst h2
            exact lt_of_getElem?_some (hInv.tech_sound _ (imGet_mem hs))
          · exact ih l2 hr i h2
      · rw [if_neg hcov] at h; cases h

theorem inv_add_technician {g : ScheduleGraph} {t : Technician} {av : Availability}
    {g' : ScheduleGraph} {r : Except ScheduleGraphErrors NodeIndex}
    (hInv : Inv g) (h : g.add_technician t av = some (g', r)) : Inv g' := by
  unfold ScheduleGraph.add_technician at h
  by_cases hc : (imGet g.technician_indices t.technician_id).isSome
  · rw [if_pos hc] at h
    simp only [Option.some.injEq, Prod.mk.injEq] at h
    obtain ⟨h1, _⟩ := h
    subst h1
    exact hInv
  · rw [if_neg hc] at h
    cases hsk : ScheduleGraph.collectSkills g t.skills with
    | error e =>
      rw [hsk] at h
      dsimp only at h
      simp only [Option.some.injEq, Prod.mk.injEq] at h
      obtain ⟨h1, _⟩ := h
      subst h1
      exact hInv
    | ok skills =>
      rw [hsk] at h
      dsimp only at h
      cases hdays : ScheduleGraph.collectAvailabilityDays g
          (ScheduleGraph.availabilityDates av) with
      | error e =>
        rw [hdays] at h
        dsimp only at h
        simp only [Option.some.injEq, Prod.mk.injEq] at h
        obtain ⟨h1, _⟩ := h
        subst h1
        exact hInv
      | ok single_availability =>
        rw [hdays] at h
        dsimp only at h
        cases hn : g.add_node (.technician t.technician_id) with
        | none => rw [hn] at h; cases h
        | some q =>
          obtain ⟨g1, ti⟩ := q
          rw [hn] at h
          dsimp only at h
          simp only [Option.some.injEq, Prod.mk.injEq] at h
          obtain ⟨h1, _⟩ := h
          subst h1
          obtain ⟨hlook, hi, hnodes1, _⟩ := add_node_eq hn
          have hInv1 := inv_add_node hInv hn
          have hg1len : g1.nodes.length = g.nodes.length + 1 := by rw [hnodes1]; simp
          apply inv_add_edge hInv1
          intro n hn2
          rcases List.mem_cons.mp hn2 with h2 | h2
          · subst h2
            rw [hg1len, hi]
            exact Nat.lt_succ_self _
          · rcases List.mem_append.mp h2 with h3 | h3
            · have := collectSkills_valid hInv _ _ hsk n h3
              rw [hg1len]
              exact Nat.lt_succ_of_lt this
            · have := collectAvailabilityDays_valid hInv _ _ hdays n h3
              rw [hg1len]
              exact Nat.lt_succ_of_lt this

theorem inv_add_assignment_work_order {g : ScheduleGraph} {w : TechnicianId}
    {wo : WorkOrderNumber} {p : Period} {g' : ScheduleGraph}
    {r : Except ScheduleGraphErrors EdgeIndex}
    (hInv : Inv g) (h : g.add_assignment_work_order w wo p = (g', r)) : Inv g' := by
  unfold ScheduleGraph.add_assignment_work_order at h
  cases hw : imGet g.technician_indices w with
  | none =>
    rw [hw] at h
    simp only [Prod.mk.injEq] at h
    obtain ⟨h1, _⟩ := h
    subst h1
    exact hInv
  | some wi =>
    rw [hw] at h
    dsimp only at h
    cases hwo : imGet g.work_order_indices wo with
    | none =>
      rw [hwo] at h
      simp only [Prod.mk.injEq] at h
      obtain ⟨h1, _⟩ := h
      subst h1
      exact hInv
    | some woi =>
      rw [hwo] at h
      dsimp only at h
      cases hp : imGet g.period_indices p with
      | none =>
        rw [hp] at h
        simp only [Prod.mk.injEq] at h
        obtain ⟨h1, _⟩ := h
        subst h1
        exact hInv
      | some pi =>
        rw [hp] at h
        dsimp only at h
        simp only [Prod.mk.injEq] at h
        obtain ⟨h1, _⟩ := h
        subst h1
        refine ⟨hInv.inc_len, hInv.tech_sound, hInv.wo_sound, hInv.period_sound,
          hInv.skill_sound, hInv.day_sound, hInv.tech_complete, hInv.wo_complete,
          hInv.period_complete, hInv.skill_complete, hInv.day_complete, ?_, ?_⟩
        · intro e he n hn
          rcases List.mem_append.mp he with h2 | h2
          · exact hInv.edges_valid e h2 n hn
          · rw [List.mem_singleton] at h2
            subst h2
            rcases List.mem_cons.mp hn with h3 | h3
            · subst h3; exact lt_of_getElem?_some (hInv.tech_sound _ (imGet_mem hw))
            · rcases List.mem_cons.mp h3 with h4 | h4
              · subst h4; exact lt_of_getElem?_some (hInv.wo_sound _ (imGet_mem hwo))
              · rw [List.mem_singleton] at h4
                subst h4
                exact lt_of_getElem?_some (hInv.period_sound _ (imGet_mem hp))
        · intro ei he hsome hty n hn
          rcases getElem?_snoc_cases hsome with ⟨_, h2⟩ | ⟨_, h2⟩
          · exact hInv.edges_incident ei he h2 hty n hn
          · subst h2
            exact absurd rfl hty

theorem inv_add_assign_skill_to_worker {g : ScheduleGraph} {w : TechnicianId}
    {s : Skill} {g' : ScheduleGraph} {r : Except ScheduleGraphErrors EdgeIndex}
    (hInv : Inv g) (h : g.add_assign_skill_to_worker w s = (g', r)) : Inv g' := by
  unfold ScheduleGraph.add_assign_skill_to_worker at h
  cases hw : imGet g.technician_indices w with
  | none =>
    rw [hw] at h
    simp only [Prod.mk.injEq] at h
    obtain ⟨h1, _⟩ := h
    subst h1
    exact hInv
  | some wi =>
    rw [hw] at h
    dsimp only at h
    cases hs : imGet g.skill_indices s with
    | none =>
      rw [hs] at h
      simp only [Prod.mk.injEq] at h
      obtain ⟨h1, _⟩ := h
      subst h1
      exact hInv
    | some si =>
      rw [hs] at h
      dsimp only at h
      simp only [Prod.mk.injEq] at h
      obtain ⟨h1, _⟩ := h
      subst h1
      apply inv_add_edge hInv
      intro n hn
      rcases List.mem_cons.mp hn with h2 | h2
      · subst h2; exact lt_of_getElem?_some (hInv.tech_sound _ (imGet_mem hw))
      · rw [List.mem_singleton] at h2
        subst h2
        exact lt_of_getElem?_some (hInv.skill_sound _ (imGet_mem hs))

theorem inv_add_exclusion {g : ScheduleGraph} {won : WorkOrderNumber} {p : Period}
    {g' : ScheduleGraph} {r : Except ScheduleGraphErrors EdgeIndex}
    (hInv : Inv g) (h : g.add_exclusion won p = (g', r)) : Inv g' := by
  unfold ScheduleGraph.add_exclusion at h
  cases hwo : imGet g.work_order_indices won with
  | none =>
    rw [hwo] at h
    simp only [Prod.mk.injEq] at h
    obtain ⟨h1, _⟩ := h
    subst h1
    exact hInv
  | some woi =>
    rw [hwo] at h
    dsimp only at h
    cases hp : imGet g.period_indices p with
    | none =>
      rw [hp] at h
      simp only [Prod.mk.injEq] at h
      obtain ⟨h1, _⟩ := h
      subst h1
      exact hInv
    | some pi =>
      rw [hp] at h
      dsimp only at h
      simp only [Prod.mk.injEq] at h
      obtain ⟨h1, _⟩ := h
      subst h1
      apply inv_add_edge hInv
      intro n hn
      rcases List.mem_cons.mp hn with h2 | h2
      · subst h2; exact lt_of_getElem?_some (hInv.wo_sound _ (imGet_mem hwo))
      · rcases List.mem_cons.mp h2 with h3 | h3
        · subst h3; exact lt_of_getElem?_some (hInv.period_sound _ (imGet_mem hp))
        · obtain ⟨e, hmem, hse⟩ := List.mem_filterMap.mp h3
          by_cases hcond : p.start_date ≤ e.1 ∧ e.1 ≤ p.start_date + 13
          · rw [if_pos hcond] at hse
            simp only [Option.some.injEq] at hse
            subst hse
            exact lt_of_getElem?_some (hInv.day_sound e hmem)
          · rw [if_neg hcond] at hse
            cases hse

theorem inv_add_assignment_activity {g : ScheduleGraph} {ts : List TechnicianId}
    {won : WorkOrderNumber} {an : ActivityNumber} {ds : List Date} {tw : Time × Time}
    {g' : ScheduleGraph} {r : Except ScheduleGraphErrors EdgeIndex}
    (hInv : Inv g) (h : g.add_assignment_activity ts won an ds tw = (g', r)) : Inv g' := by
  unfold ScheduleGraph.add_assignment_activity at h
  cases hdi : ScheduleGraph.collectDayIndices g ds with
  | error e =>
    rw [hdi] at h
    simp only [Prod.mk.injEq] at h
    obtain ⟨h1, _⟩ := h
    subst h1
    exact hInv
  | ok date_node_indices =>
    rw [hdi] at h
    dsimp only at h
    cases htl : ScheduleGraph.technician_loop g ds ts with
    | error e =>
      rw [htl] at h
      simp only [Prod.mk.injEq] at h
      obtain ⟨h1, _⟩ := h
      subst h1
      exact hInv
    | ok technician_node_indices =>
      rw [htl] at h
      dsimp only at h
      cases hwo : imGet g.work_order_indices won with
      | none =>
        rw [hwo] at h
        simp only [Prod.mk.injEq] at h
        obtain ⟨h1, _⟩ := h
        subst h1
        exact hInv
      | some woi =>
        rw [hwo] at h
        dsimp only at h
        cases hincd : g.incidence_list.get? woi with
        | none =>
          rw [hincd] at h
          simp only [Prod.mk.injEq] at h
          obtain ⟨h1, _⟩ := h
          subst h1
          exact hInv
        | some incident =>
          rw [hincd] at h
          dsimp only at h
          cases hfd : incident.findSome? (fun hh =>
              (g.hyperedges.getD hh junkEdge).nodes.find? (fun n =>
                match g.nodes.getD n junkNode with
                | .activity activity => decide (activity.activity_number = an)
                | _ => false)) with
          | none =>
            rw [hfd] at h
            simp only [Prod.mk.injEq] at h
            obtain ⟨h1, _⟩ := h
            subst h1
            exact hInv
          | some activity_node_index =>
            rw [hfd] at h
            dsimp only at h
            have hact_lt : activity_node_index < g.nodes.length := by
              obtain ⟨hh, _, hfind⟩ := findSome?_exists hfd
              have hmem := List.mem_of_find?_eq_some hfind
              by_cases hlt : hh < g.hyperedges.length
              · have hed : g.hyperedges.getD hh junkEdge = g.hyperedges[hh] := by
                  rw [List.getD_eq_getElem?_getD, List.getElem?_eq_getElem hlt]
                  rfl
                rw [hed] at hmem
                exact hInv.edges_valid _ (List.getElem_mem hlt) _ hmem
              · have hed : g.hyperedges.getD hh junkEdge = junkEdge := by
                  rw [List.getD_eq_getElem?_getD,
                    List.getElem?_eq_none (Nat.le_of_not_lt hlt)]
                  rfl
                rw [hed] at hmem
                cases hmem
            by_cases hhead : (match g.nodes.getD activity_node_index junkNode with
                | .activity activity => decide (activity.number_of_people < ts.length)
                | _ => false) = true
            · rw [if_pos hhead] at h
              simp only [Prod.mk.injEq] at h
              obtain ⟨h1, _⟩ := h
              subst h1
              exact hInv
            · rw [if_neg hhead] at h
              simp only [Prod.mk.injEq] at h
              obtain ⟨h1, _⟩ := h
              subst h1
              apply inv_add_edge hInv
              intro n hn
              rcases List.mem_cons.mp hn with h2 | h2
              · subst h2; exact hact_lt
              · rcases List.mem_append.mp h2 with h3 | h3
                · exact technician_loop_valid hInv _ _ htl n h3
                · exact collectDayIndices_valid hInv _ _ hdi n h3

/-- Every reachable graph state satisfies the internal invariant. -/
theorem inv_reachable {g : ScheduleGraph} (h : Reachable g) : Inv g := by
  induction h with
  | empty => exact inv_new
  | add_skill _ hstep ih => exact inv_add_skill ih hstep
  | add_period _ hstep ih => exact inv_add_period ih hstep
  | add_work_order _ hstep ih => exact inv_add_work_order ih hstep
  | add_technician _ hstep ih => exact inv_add_technician ih hstep
  | add_assignment_work_order _ hstep ih => exact inv_add_assignment_work_order ih hstep
  | add_assignment_activity _ hstep ih => exact inv_add_assignment_activity ih hstep
  | add_assign_skill_to_worker _ hstep ih => exact inv_add_assign_skill_to_worker ih hstep
  | add_exclusion _ hstep ih => exact inv_add_exclusion ih hstep

/-! ### Concrete graphs used by witnesses and counterexamples -/

/-- The graph after `add_skill(MtnMech)` on the empty graph. -/
def gMech : ScheduleGraph :=
  { nodes := [Node.skill Skill.MtnMech]
    hyperedges := []
    incidence_list := [[]]
    technician_indices := []
    work_order_indices := []
    period_indices := []
    skill_indices := [(Skill.MtnMech, 0)]
    day_indices := [] }

theorem reachable_gMech : Reachable gMech :=
  @Reachable.add_skill ScheduleGraph.new gMech Skill.MtnMech 0 Reachable.empty (by decide)

/-! ### C1 -/

/-- C1: in every graph state reachable from the empty graph through the
public construction operations, the incidence list has exactly as many
entries as the node arena: `len(incidence_list) == len(nodes)`. -/
theorem C1_incidence_length_invariant (g : ScheduleGraph) (h : Reachable g) :
    g.incidence_list.length = g.nodes.length :=
  (inv_reachable h).inc_len

theorem C1_witness : gMech.incidence_list.length = gMech.nodes.length :=
  C1_incidence_length_invariant gMech reachable_gMech

/-! ### C9 -/

/-- C9: every hyperedge created through the invariant-preserving primitive
`add_edge` gets its handle appended to the incidence sequence of every node
handle in its node list (first conjunct, stated for the next `add_edge` call
on any reachable state), and in every reachable state every edge so created
— through the public API these are exactly the edges that are not
`Assign(None)`, since only `add_assignment_work_order` bypasses `add_edge` —
has its handle present in each listed node's incidence sequence (second
conjunct). -/
theorem C9_add_edge_registers_incidence (g : ScheduleGraph) (h : Reachable g) :
    (∀ (ty : EdgeType) (ns : List NodeIndex), (∀ n ∈ ns, n < g.nodes.length) →
       (g.add_edge ty ns).2 = g.hyperedges.length ∧
       ∀ n ∈ ns, (g.add_edge ty ns).2 ∈ (g.add_edge ty ns).1.incidence_list.getD n []) ∧
    (∀ ei he, g.hyperedges[ei]? = some he → he.edge_type ≠ .assign none →
       ∀ n ∈ he.nodes, ei ∈ g.incidence_list.getD n []) := by
  constructor
  · intro ty ns hval
    refine ⟨rfl, ?_⟩
    intro n hn
    rw [add_edge_idx, add_edge_incidence]
    exact incPush_mem _ _ _ _ hn (by rw [(inv_reachable h).inc_len]; exact hval n hn)
  · exact (inv_reachable h).edges_incident

theorem C9_witness :
    (gMech.add_edge EdgeType.hasSkill [0]).2 = gMech.hyperedges.length ∧
    ∀ n ∈ [0], (gMech.add_edge EdgeType.hasSkill [0]).2 ∈
      (gMech.add_edge EdgeType.hasSkill [0]).1.incidence_list.getD n [] :=
  (C9_add_edge_registers_incidence gMech reachable_gMech).1 EdgeType.hasSkill [0]
    (by decide)

/-! ### C5 -/

/-- C5: after a successful `add_assignment_work_order`, the new
`Assign(None)` edge with node list `[worker, work_order, period]` sits at the
end of the edge arena and the returned handle is its index, but the incidence
list — hence every node's incidence sequence — and the node arena are exactly
as before the call: the new edge's handle is not registered anywhere. -/
theorem C5_assignment_work_order_bypasses_incidence (g : ScheduleGraph)
    (w : TechnicianId) (won : WorkOrderNumber) (p : Period) (wi woi pidx : NodeIndex)
    (hw : imGet g.technician_indices w = some wi)
    (hwo : imGet g.work_order_indices won = some woi)
    (hp : imGet g.period_indices p = some pidx) :
    g.add_assignment_work_order w won p =
      ({ g with hyperedges := g.hyperedges ++
          [{ edge_type := .assign none, nodes := [wi, woi, pidx] }] },
       .ok g.hyperedges.length) ∧
    (g.add_assignment_work_order w won p).1.incidence_list = g.incidence_list ∧
    (g.add_assignment_work_order w won p).1.nodes = g.nodes := by
  unfold ScheduleGraph.add_assignment_work_order
  rw [hw, hwo, hp]
  dsimp only
  refine ⟨?_, rfl, rfl⟩
  have hlen : (g.hyperedges ++
      [({ edge_type := .assign none, nodes := [wi, woi, pidx] } : HyperEdge)]).length - 1 =
      g.hyperedges.length := by simp
  rw [hlen]

/-- Worker 7, work order 1234567890 and period 0 all present; used to witness
C5 at a concrete input. -/
def gAssign : ScheduleGraph :=
  { nodes := [Node.technician 7, Node.workOrder 1234567890, Node.period ⟨0⟩]
    hyperedges := []
    incidence_list := [[], [], []]
    technician_indices := [(7, 0)]
    work_order_indices := [(1234567890, 1)]
    period_indices := [(⟨0⟩, 2)]
    skill_indices := []
    day_indices := [] }

theorem C5_witness :
    gAssign.add_assignment_work_order 7 1234567890 ⟨0⟩ =
      (({ gAssign with hyperedges := gAssign.hyperedges ++
          [{ edge_type := .assign none, nodes := [0, 1, 2] }] } : ScheduleGraph),
       .ok gAssign.hyperedges.length) ∧
    (gAssign.add_assignment_work_order 7 1234567890 ⟨0⟩).1.incidence_list =
      gAssign.incidence_list ∧
    (gAssign.add_assignment_work_order 7 1234567890 ⟨0⟩).1.nodes = gAssign.nodes :=
  C5_assignment_work_order_bypasses_incidence gAssign 7 1234567890 ⟨0⟩ 0 1 2
    (by decide) (by decide) (by decide)

/-! ### C3 -/

/-- C3: `add_work_order` validates in the fixed order (1) activity skills,
(2) basic-start day, (3) work-order-number uniqueness, so a duplicate work
order with a missing skill faults `WorkOrderActivityMissingSkills`, and one
with all skills present but a missing day faults `DayMissing`, in both cases
not `WorkOrderDuplicate`; only when the first two validations pass does an
indexed number fault `WorkOrderDuplicate`.  The graph is unchanged in all
three cases. -/
theorem C3_add_work_order_validation_order (g : ScheduleGraph) (wo : WorkOrder) :
    (¬ (wo.activities.all (fun activity =>
        g.skill_indices.any (fun e => decide (e.1 = activity.resource)))) →
      g.add_work_order wo = some (g, .error .WorkOrderActivityMissingSkills)) ∧
    ((wo.activities.all (fun activity =>
        g.skill_indices.any (fun e => decide (e.1 = activity.resource)))) →
      dmGet g.day_indices wo.basic_start_date = none →
      g.add_work_order wo = some (g, .error .DayMissing)) ∧
    ((wo.activities.all (fun activity =>
        g.skill_indices.any (fun e => decide (e.1 = activity.resource)))) →
      ∀ dayIdx, dmGet g.day_indices wo.basic_start_date = some dayIdx →
      (imGet g.work_order_indices wo.work_order_number).isSome →
      g.add_work_order wo = some (g, .error .WorkOrderDuplicate)) := by
  refine ⟨?_, ?_, ?_⟩
  · intro hskills
    unfold ScheduleGraph.add_work_order
    rw [if_pos hskills]
  · intro hskills hday
    unfold ScheduleGraph.add_work_order
    rw [if_neg (by rw [hskills]; exact fun hc => hc rfl), hday]
  · intro hskills dayIdx hday hdup
    unfold ScheduleGraph.add_work_order
    rw [if_neg (by rw [hskills]; exact fun hc => hc rfl), hday]
    dsimp only
    cases hw : imGet g.work_order_indices wo.work_order_number with
    | none => rw [hw] at hdup; cases hdup
    | some x => rfl

/-- A work order that is both already indexed and missing its skill: the
validation-order claim says the skill fault wins. -/
def gDupWo : ScheduleGraph :=
  { nodes := [Node.workOrder 1122334455]
    hyperedges := []
    incidence_list := [[]]
    technician_indices := []
    work_order_indices := [(1122334455, 0)]
    period_indices := []
    skill_indices := []
    day_indices := [] }

def woMech : WorkOrder :=
  { work_order_number := 1122334455
    basic_start_date := 0
    activities := [{ activity_number := 10, number_of_people := 1,
                     resource := Skill.MtnMech }] }

theorem C3_witness :
    gDupWo.add_work_order woMech =
      some (gDupWo, .error .WorkOrderActivityMissingSkills) :=
  (C3_add_work_order_validation_order gDupWo woMech).1 (by decide)

/-! ### C10 -/

/-- C10: on success `add_technician` returns the arena index of the newly
created `Available` hyperedge — the edge-arena length before the call — not
the handle of the `Technician` node it created (which is the node-arena
length before the call), even though the Rust signature advertises a
`NodeIndex`; the two values differ whenever those two arena lengths
differ. -/
theorem C10_add_technician_returns_edge_index (g : ScheduleGraph) (t : Technician)
    (av : Availability) (g' : ScheduleGraph) (r : NodeIndex)
    (h : g.add_technician t av = some (g', .ok r)) :
    r = g.hyperedges.length ∧
    (∃ ns, g'.hyperedges = g.hyperedges ++
      [{ edge_type := .available, nodes := g.nodes.length :: ns }]) ∧
    g'.nodes[g.nodes.length]? = some (.technician t.technician_id) ∧
    (g.hyperedges.length ≠ g.nodes.length → r ≠ g.nodes.length) := by
  unfold ScheduleGraph.add_technician at h
  by_cases hc : (imGet g.technician_indices t.technician_id).isSome
  · rw [if_pos hc] at h
    simp at h
  · rw [if_neg hc] at h
    cases hsk : ScheduleGraph.collectSkills g t.skills with
    | error e => rw [hsk] at h; dsimp only at h; simp at h
    | ok skills =>
      rw [hsk] at h
      dsimp only at h
      cases hdays : ScheduleGraph.collectAvailabilityDays g
          (ScheduleGraph.availabilityDates av) with
      | error e => rw [hdays] at h; dsimp only at h; simp at h
      | ok single_availability =>
        rw [hdays] at h
        dsimp only at h
        cases hn : g.add_node (.technician t.technician_id) with
        | none => rw [hn] at h; cases h
        | some q =>
          obtain ⟨g1, ti⟩ := q
          rw [hn] at h
          dsimp only at h
          simp only [Option.some.injEq, Prod.mk.injEq, Except.ok.injEq] at h
          obtain ⟨h1, h2⟩ := h
          obtain ⟨hlook, hi, hnodes1, hinc1, hedges1, _⟩ := add_node_eq hn
          subst h1
          refine ⟨?_, ?_, ?_, ?_⟩
          · rw [← h2, add_edge_idx, hedges1]
          · refine ⟨skills ++ single_availability, ?_⟩
            rw [add_edge_hyperedges, hedges1, hi]
          · rw [add_edge_nodes, hnodes1]
            exact List.getElem?_concat_length _ _
          · intro hne
            rw [← h2, add_edge_idx, hedges1]
            exact hne

/-- The graph after `add_skill(MtnMech)` and `add_period(day 0)`: skill node
0, day nodes 1–14 for dates 0–13, period node 15.  The doubled period entry
mirrors the redundant re-insert `add_period` performs after `add_node` in
the association-list model of the hash map. -/
def gMechPeriod : ScheduleGraph :=
  { nodes := [Node.skill Skill.MtnMech, Node.day 0, Node.day 1, Node.day 2,
      Node.day 3, Node.day 4, Node.day 5, Node.day 6, Node.day 7, Node.day 8,
      Node.day 9, Node.day 10, Node.day 11, Node.day 12, Node.day 13,
      Node.period ⟨0⟩]
    hyperedges := []
    incidence_list := [[], [], [], [], [], [], [], [], [], [], [], [], [], [],
      [], []]
    technician_indices := []
    work_order_indices := []
    period_indices := [(⟨0⟩, 15), (⟨0⟩, 15)]
    skill_indices := [(Skill.MtnMech, 0)]
    day_indices := [(0, 1), (1, 2), (2, 3), (3, 4), (4, 5), (5, 6), (6, 7),
      (7, 8), (8, 9), (9, 10), (10, 11), (11, 12), (12, 13), (13, 14)]
    }

/-- Extract the state of a possibly-panicking operation result. -/
def stepG {α : Type} (o : Option (ScheduleGraph × α)) (g : ScheduleGraph) :
    ScheduleGraph :=
  match o with
  | some q => q.1
  | none => g

def techOne : Technician := { technician_id := 1, skills := [Skill.MtnMech] }

def availWeek : Availability := { start_date := 0, finish_date := 6 }

def gTechResult : ScheduleGraph :=
  stepG (gMechPeriod.add_technician techOne availWeek) gMechPeriod

theorem C10_witness :
    (0 : Nat) = gMechPeriod.hyperedges.length ∧
    (∃ ns, gTechResult.hyperedges = gMechPeriod.hyperedges ++
      [{ edge_type := .available, nodes := gMechPeriod.nodes.length :: ns }]) ∧
    gTechResult.nodes[gMechPeriod.nodes.length]? =
      some (.technician techOne.technician_id) ∧
    (gMechPeriod.hyperedges.length ≠ gMechPeriod.nodes.length →
      (0 : Nat) ≠ gMechPeriod.nodes.length) :=
  C10_add_technician_returns_edge_index gMechPeriod techOne availWeek gTechResult 0
    (by decide)

/-! ### C4 -/

theorem insertIndex_skills_activity (g : ScheduleGraph) (a : ActivityNode) (i : NodeIndex) :
    (g.insertIndex (.activity a) i).skill_indices = g.skill_indices := rfl

/-- The activity loop of `add_work_order` cannot fault: its only fault path
is the `SkillMissing` lookup, and every caller reaches the loop only after
the up-front check that every activity's skill is indexed, which no loop
iteration invalidates. -/
theorem work_order_loop_no_error :
    ∀ (acts : List Activity) (g : ScheduleGraph) (rels : List ActivityRelation)
      (woIdx prev k : Nat) (g' : ScheduleGraph) (e : ScheduleGraphErrors),
    (∀ a ∈ acts, (imGet g.skill_indices a.resource).isSome) →
    ScheduleGraph.work_order_loop g woIdx rels prev k acts ≠ some (g', .error e) := by
  intro acts
  induction acts with
  | nil =>
    intro g rels woIdx prev k g' e hsk h
    simp only [ScheduleGraph.work_order_loop, Option.some.injEq, Prod.mk.injEq] at h
    cases h.2
  | cons a rest ih =>
    intro g rels woIdx prev k g' e hsk h
    unfold ScheduleGraph.work_order_loop at h
    cases hn : g.add_node (.activity ⟨a.activity_number, a.number_of_people⟩) with
    | none => rw [hn] at h; cases h
    | some q =>
      obtain ⟨g1, actIdx⟩ := q
      rw [hn] at h
      dsimp only at h
      obtain ⟨_, _, _, _, _, _, _, _, hs1, _⟩ := add_node_eq hn
      rw [insertIndex_skills_activity] at hs1
      have hskill := hsk a (List.mem_cons_self a rest)
      cases hg : imGet g1.skill_indices a.resource with
      | none => rw [← hs1, hg] at hskill; cases hskill
      | some skillIdx =>
        rw [hg] at h
        dsimp only at h
        have hrest : ∀ b ∈ rest, (imGet g1.skill_indices b.resource).isSome := by
          intro b hb
          rw [hs1]
          exact hsk b (List.mem_cons_of_mem a hb)
        by_cases hk : k ≠ 0
        · rw [if_pos hk] at h
          cases hrel : rels.get? (k - 1) with
          | none => rw [hrel] at h; cases h
          | some rel =>
            rw [hrel] at h
            cases rel with
            | Postpone dt => dsimp only at h; cases h
            | StartStart =>
              dsimp only at h
              exact ih _ rels woIdx actIdx (k + 1) g' e (by
                intro b hb
                rw [add_edge_maps _ _ _ |>.2.2.2.1, add_edge_maps _ _ _ |>.2.2.2.1]
                exact hrest b hb) h
            | FinishStart =>
              dsimp only at h
              exact ih _ rels woIdx actIdx (k + 1) g' e (by
                intro b hb
                rw [add_edge_maps _ _ _ |>.2.2.2.1, add_edge_maps _ _ _ |>.2.2.2.1]
                exact hrest b hb) h
        · rw [if_neg hk] at h
          dsimp only at h
          exact ih _ rels woIdx actIdx (k + 1) g' e (by
            intro b hb
            rw [add_edge_maps _ _ _ |>.2.2.2.1, add_edge_maps _ _ _ |>.2.2.2.1]
            exact hrest b hb) h

/-- Whenever `add_work_order` returns a fault, the graph is unchanged: all
three up-front validations fail before any mutation, and the loop's fault
path is unreachable. -/
theorem add_work_order_error_unchanged {g : ScheduleGraph} {wo : WorkOrder}
    {g' : ScheduleGraph} {e : ScheduleGraphErrors}
    (h : g.add_work_order wo = some (g', .error e)) : g' = g := by
  unfold ScheduleGraph.add_work_order at h
  by_cases hc : ¬ (wo.activities.all (fun activity =>
      g.skill_indices.any (fun e => decide (e.1 = activity.resource)))) = true
  · rw [if_pos hc] at h
    simp only [Option.some.injEq, Prod.mk.injEq] at h
    exact h.1.symm
  · rw [if_neg hc] at h
    have hall : ∀ a ∈ wo.activities,
        g.skill_indices.any (fun e => decide (e.1 = a.resource)) = true := by
      intro a ha
      have h2 : (wo.activities.all (fun activity =>
          g.skill_indices.any (fun e => decide (e.1 = activity.resource)))) = true := by
        by_cases hb : (wo.activities.all (fun activity =>
            g.skill_indices.any (fun e => decide (e.1 = activity.resource)))) = true
        · exact hb
        · exact absurd hb (by simpa using hc)
      exact List.all_eq_true.mp h2 a ha
    cases hday : dmGet g.day_indices wo.basic_start_date with
    | none =>
      rw [hday] at h
      simp only [Option.some.injEq, Prod.mk.injEq] at h
      exact h.1.symm
    | some dayIdx =>
      rw [hday] at h
      dsimp only at h
      cases hwoi : imGet g.work_order_indices wo.work_order_number with
      | some x =>
        rw [hwoi] at h
        simp only [Option.some.injEq, Prod.mk.injEq] at h
        exact h.1.symm
      | none =>
        rw [hwoi] at h
        dsimp only at h
        cases hn : g.add_node (.workOrder wo.work_order_number) with
        | none => rw [hn] at h; cases h
        | some q =>
          obtain ⟨g1, woIdx⟩ := q
          rw [hn] at h
          dsimp only at h
          obtain ⟨_, _, _, _, _, _, _, _, hs1, _⟩ := add_node_eq hn
          have hs1' : g1.skill_indices = g.skill_indices := by
            rw [hs1]; rfl
          cases hloop : ScheduleGraph.work_order_loop (g1.add_edge .basicStart
              [woIdx, dayIdx]).1 woIdx wo.activities_relations
              ScheduleGraph.usizeMaxSentinel 0 wo.activities with
          | none => rw [hloop] at h; cases h
          | some q2 =>
            obtain ⟨g3, lr⟩ := q2
            rw [hloop] at h
            cases lr with
            | error e2 =>
              exact absurd hloop (work_order_loop_no_error _ _ _ _ _ _ _ _ (by
                intro a ha
                rw [add_edge_maps _ _ _ |>.2.2.2.1, hs1']
                exact imGet_isSome_of_any (hall a ha)))
            | ok u =>
              dsimp only at h
              simp only [Option.some.injEq, Prod.mk.injEq] at h
              cases h.2

/-- C4 as stated is false of the code: there is no reachable state and
work-order input on which `add_work_order` both returns a fault and leaves
behind newly appended structure (a grown node arena); every fault path
returns before the first mutation, and the activity loop's own fault is
unreachable. -/
theorem C4_counterexample :
    ¬ ∃ (g g' : ScheduleGraph) (wo : WorkOrder) (e : ScheduleGraphErrors),
        Reachable g ∧ g.add_work_order wo = some (g', .error e) ∧
        g.nodes.length < g'.nodes.length := by
  rintro ⟨g, g', wo, e, _, h, hlen⟩
  rw [add_work_order_error_unchanged h] at hlen
  exact Nat.lt_irrefl _ hlen

/-- C4 amended: `add_work_order` is in fact transactional — whenever it
returns a fault, the graph state is exactly as before the call.  The
partial-mutation path the spec describes (`SkillMissing` inside the
activity loop, after the WorkOrder node and BasicStart edge are appended)
exists in the code but is unreachable, because the up-front skill
validation already guarantees every activity's skill is indexed and the
loop only adds nodes and edges. -/
theorem C4_amended (g : ScheduleGraph) (wo : WorkOrder) (g' : ScheduleGraph)
    (e : ScheduleGraphErrors)
    (h : g.add_work_order wo = some (g', .error e)) : g' = g :=
  add_work_order_error_unchanged h

theorem C4_witness :
    stepG (gDupWo.add_work_order woMech) gDupWo = gDupWo :=
  C4_amended gDupWo woMech (stepG (gDupWo.add_work_order woMech) gDupWo)
    .WorkOrderActivityMissingSkills (by decide)

/-! ### C6 -/

/-- Written from the claim (spec §4.4): a node qualifies for `period` when it
is a `Period` node equal to the argument, or a `Day` node whose date lies in
the half-open window `[start_date, start_date + 13)`. -/
def nodeQualifiesForPeriod (g : ScheduleGraph) (period : Period) (n : NodeIndex) : Bool :=
  match g.nodes.getD n junkNode with
  | .period q => decide (q = period)
  | .day d => decide (period.start_date ≤ d ∧ d < period.start_date + 13)
  | _ => false

/-- Written from the claim (spec §4.4): in hyperedge-creation order, one
handle per qualifying node of each `Assign`-kind edge. -/
def specAssignmentsForPeriod (g : ScheduleGraph) (period : Period) : List EdgeIndex :=
  (g.hyperedges.enum.filter (fun e =>
      match e.2.edge_type with
      | .assign _ => true
      | _ => false)).flatMap
    (fun ie => (ie.2.nodes.filter (nodeQualifiesForPeriod g period)).map (fun _ => ie.1))

theorem find_fold_body_eq (g : ScheduleGraph) (p : Period) (i : EdgeIndex)
    (n : NodeIndex) (acc : List EdgeIndex) :
    (match g.nodes.getD n junkNode with
     | .period period => if period = p then acc ++ [i] else acc
     | .day naive_date =>
       if p.start_date ≤ naive_date ∧ naive_date < p.start_date + 13 then acc ++ [i]
       else acc
     | _ => acc) =
    (if nodeQualifiesForPeriod g p n then acc ++ [i] else acc) := by
  unfold nodeQualifiesForPeriod
  cases g.nodes.getD n junkNode with
  | period q => by_cases hq : q = p <;> simp [hq]
  | day d =>
    by_cases hd : p.start_date ≤ d ∧ d < p.start_date + 13 <;> simp [hd]
  | technician w => rfl
  | workOrder w => rfl
  | activity a => rfl
  | skill s => rfl

theorem find_inner_fold (g : ScheduleGraph) (p : Period) (i : EdgeIndex) :
    ∀ (ns : List NodeIndex) (acc : List EdgeIndex),
    ns.foldl (fun edges n =>
      match g.nodes.getD n junkNode with
      | .period period => if period = p then edges ++ [i] else edges
      | .day naive_date =>
        if p.start_date ≤ naive_date ∧ naive_date < p.start_date + 13 then edges ++ [i]
        else edges
      | _ => edges) acc =
    acc ++ (ns.filter (nodeQualifiesForPeriod g p)).map (fun _ => i) := by
  intro ns
  induction ns with
  | nil => intro acc; simp
  | cons n rest ih =>
    intro acc
    rw [List.foldl_cons, find_fold_body_eq]
    by_cases hq : nodeQualifiesForPeriod g p n
    · rw [if_pos hq, ih, List.filter_cons_of_pos hq]
      simp
    · rw [if_neg hq, ih, List.filter_cons_of_neg (by simpa using hq)]

theorem find_outer_fold (g : ScheduleGraph) (p : Period) :
    ∀ (ies : List (Nat × HyperEdge)) (acc : List EdgeIndex),
    ies.foldl (fun edges ie =>
      ie.2.nodes.foldl (fun edges n =>
        match g.nodes.getD n junkNode with
        | .period period => if period = p then edges ++ [ie.1] else edges
        | .day naive_date =>
          if p.start_date ≤ naive_date ∧ naive_date < p.start_date + 13 then
            edges ++ [ie.1]
          else edges
        | _ => edges) edges) acc =
    acc ++ ies.flatMap (fun ie =>
      (ie.2.nodes.filter (nodeQualifiesForPeriod g p)).map (fun _ => ie.1)) := by
  intro ies
  induction ies with
  | nil => intro acc; simp
  | cons ie rest ih =>
    intro acc
    rw [List.foldl_cons, find_inner_fold, ih, List.flatMap_cons, List.append_assoc]

/-- C6: `find_all_assignments_for_period` returns `PeriodMissing` exactly
when no `Period` node equals the argument; otherwise it returns, in
hyperedge-creation order, one handle per qualifying node of each
`Assign`-kind edge — a node qualifying when it is a `Period` node equal to
the argument or a `Day` node dated in `[start_date, start_date + 13)`, so the
same handle repeats for several qualifying nodes and a `Day` at exactly
`start_date + 13` does not qualify (the witness exhibits both). -/
theorem C6_find_assignments_for_period (g : ScheduleGraph) (p : Period) :
    ((g.nodes.any (fun e => decide (e = Node.period p))) = false →
      g.find_all_assignments_for_period p = .error .PeriodMissing) ∧
    ((g.nodes.any (fun e => decide (e = Node.period p))) = true →
      g.find_all_assignments_for_period p = .ok (specAssignmentsForPeriod g p)) := by
  constructor
  · intro hno
    unfold ScheduleGraph.find_all_assignments_for_period
    rw [if_pos (by simp [hno])]
  · intro hyes
    unfold ScheduleGraph.find_all_assignments_for_period
    rw [if_neg (by simp [hyes])]
    dsimp only
    rw [find_outer_fold]
    rfl

/-- One `Assign` edge over a `Period` node, an in-window `Day` and the `Day`
exactly 13 days after the period start: the edge handle is emitted twice. -/
def gQuery : ScheduleGraph :=
  { nodes := [Node.period ⟨0⟩, Node.day 0, Node.day 13]
    hyperedges := [{ edge_type := .assign none, nodes := [0, 1, 2] }]
    incidence_list := [[], [], []]
    technician_indices := []
    work_order_indices := []
    period_indices := [(⟨0⟩, 0)]
    skill_indices := []
    day_indices := [(0, 1), (13, 2)] }

theorem C6_witness :
    gQuery.find_all_assignments_for_period ⟨0⟩ =
      .ok (specAssignmentsForPeriod gQuery ⟨0⟩) ∧
    specAssignmentsForPeriod gQuery ⟨0⟩ = [0, 0] ∧
    gQuery.find_all_assignments_for_period ⟨1⟩ = .error .PeriodMissing :=
  ⟨(C6_find_assignments_for_period gQuery ⟨0⟩).2 (by decide), by decide,
   (C6_find_assignments_for_period gQuery ⟨1⟩).1 (by decide)⟩

/-! ### C7 -/

theorem collectDayIndices_isSome_ok (g : ScheduleGraph) :
    ∀ (ds : List Date), (∀ d ∈ ds, (dmGet g.day_indices d).isSome) →
    ∃ l, ScheduleGraph.collectDayIndices g ds = .ok l := by
  intro ds
  induction ds with
  | nil => intro _; exact ⟨[], rfl⟩
  | cons d rest ih =>
    intro hds
    have hd := hds d (List.mem_cons_self d rest)
    cases hg : dmGet g.day_indices d with
    | none => rw [hg] at hd; cases hd
    | some i =>
      obtain ⟨l, hl⟩ := ih (fun d2 hd2 => hds d2 (List.mem_cons_of_mem d hd2))
      refine ⟨i :: l, ?_⟩
      unfold ScheduleGraph.collectDayIndices
      rw [hg, hl]
      rfl

theorem technician_loop_uncovered (g : ScheduleGraph) (ds : List Date) :
    ∀ (ts : List TechnicianId), (∀ t ∈ ts, (imGet g.technician_indices t).isSome) →
    (∃ t ∈ ts, ∀ ti, imGet g.technician_indices t = some ti →
      ScheduleGraph.technicianCovered g ti ds = false) →
    ScheduleGraph.technician_loop g ds ts = .error .WorkerUnavailable := by
  intro ts
  induction ts with
  | nil =>
    intro _ hex
    obtain ⟨t, ht, _⟩ := hex
    cases ht
  | cons t rest ih =>
    intro hres hex
    have ht := hres t (List.mem_cons_self t rest)
    cases hg : imGet g.technician_indices t with
    | none => rw [hg] at ht; cases ht
    | some ti =>
      unfold ScheduleGraph.technician_loop
      rw [hg]
      dsimp only
      obtain ⟨t2, ht2, hunc⟩ := hex
      rcases List.mem_cons.mp ht2 with h2 | h2
      · subst h2
        rw [if_neg (by rw [hunc ti hg]; exact fun hc => Bool.noConfusion hc)]
      · by_cases hcov : ScheduleGraph.technicianCovered g ti ds
        · rw [if_pos hcov,
            ih (fun t3 ht3 => hres t3 (List.mem_cons_of_mem t ht3)) ⟨t2, h2, hunc⟩]
          rfl
        · rw [if_neg hcov]

theorem technician_loop_all_covered (g : ScheduleGraph) (ds : List Date) :
    ∀ (ts : List TechnicianId), (∀ t ∈ ts, (imGet g.technician_indices t).isSome) →
    (∀ t ∈ ts, ∀ ti, imGet g.technician_indices t = some ti →
      ScheduleGraph.technicianCovered g ti ds = true) →
    ∃ l, ScheduleGraph.technician_loop g ds ts = .ok l := by
  intro ts
  induction ts with
  | nil => intro _ _; exact ⟨[], rfl⟩
  | cons t rest ih =>
    intro hres hcov
    have ht := hres t (List.mem_cons_self t rest)
    cases hg : imGet g.technician_indices t with
    | none => rw [hg] at ht; cases ht
    | some ti =>
      obtain ⟨l, hl⟩ := ih (fun t2 ht2 => hres t2 (List.mem_cons_of_mem t ht2))
        (fun t2 ht2 => hcov t2 (List.mem_cons_of_mem t ht2))
      refine ⟨ti :: l, ?_⟩
      unfold ScheduleGraph.technician_loop
      rw [hg]
      dsimp only
      rw [if_pos (hcov t (List.mem_cons_self t rest) ti hg), hl]
      rfl

/-- C7: with all requested days and all technician ids resolving, a
technician is accepted exactly when one of its incident `Available` edges
references a day set containing every requested day (third conjunct,
unfolding `technicianCovered`); if some technician in the list is uncovered
the whole call returns `WorkerUnavailable` with the graph unchanged — no
edge is created (first conjunct); if every technician is covered the call
never returns `WorkerUnavailable` (second conjunct). -/
theorem C7_worker_unavailable (g : ScheduleGraph) (ts : List TechnicianId)
    (won : WorkOrderNumber) (an : ActivityNumber) (ds : List Date) (tw : Time × Time)
    (hdays : ∀ d ∈ ds, (dmGet g.day_indices d).isSome)
    (htechs : ∀ t ∈ ts, (imGet g.technician_indices t).isSome) :
    ((∃ t ∈ ts, ∀ ti, imGet g.technician_indices t = some ti →
        ScheduleGraph.technicianCovered g ti ds = false) →
      g.add_assignment_activity ts won an ds tw = (g, .error .WorkerUnavailable)) ∧
    ((∀ t ∈ ts, ∀ ti, imGet g.technician_indices t = some ti →
        ScheduleGraph.technicianCovered g ti ds = true) →
      (g.add_assignment_activity ts won an ds tw).2 ≠ .error .WorkerUnavailable) ∧
    (∀ ti, ScheduleGraph.technicianCovered g ti ds = true ↔
      ∃ h ∈ g.incidence_list.getD ti [],
        (g.hyperedges.getD h junkEdge).edge_type = EdgeType.available ∧
        ∀ d ∈ ds, d ∈ ScheduleGraph.availableEdgeDays g h) := by
  obtain ⟨dl, hdl⟩ := collectDayIndices_isSome_ok g ds hdays
  refine ⟨?_, ?_, ?_⟩
  · intro hex
    unfold ScheduleGraph.add_assignment_activity
    rw [hdl]
    dsimp only
    rw [technician_loop_uncovered g ds ts htechs hex]
  · intro hcov
    obtain ⟨tl, htl⟩ := technician_loop_all_covered g ds ts htechs hcov
    unfold ScheduleGraph.add_assignment_activity
    rw [hdl]
    dsimp only
    rw [htl]
    dsimp only
    cases hwo : imGet g.work_order_indices won with
    | none => simp
    | some woi =>
      dsimp only
      cases hincd : g.incidence_list.get? woi with
      | none => simp
      | some incident =>
        dsimp only
        cases hfd : incident.findSome? (fun hh =>
            (g.hyperedges.getD hh junkEdge).nodes.find? (fun n =>
              match g.nodes.getD n junkNode with
              | .activity activity => decide (activity.activity_number = an)
              | _ => false)) with
        | none => simp
        | some activity_node_index =>
          dsimp only
          by_cases hhead : (match g.nodes.getD activity_node_index junkNode with
              | .activity activity => decide (activity.number_of_people < ts.length)
              | _ => false) = true
          · rw [if_pos hhead]
            simp
          · rw [if_neg hhead]
            simp
  · intro ti
    unfold ScheduleGraph.technicianCovered
    constructor
    · intro hc
      obtain ⟨h, hmem, hall⟩ := List.any_eq_true.mp hc
      obtain ⟨hmem2, hty⟩ := List.mem_filter.mp hmem
      refine ⟨h, hmem2, by simpa using hty, ?_⟩
      intro d hd
      have := List.all_eq_true.mp hall d hd
      simpa [List.contains] using this
    · intro hc
      obtain ⟨h, hmem, hty, hdays2⟩ := hc
      apply List.any_eq_true.mpr
      refine ⟨h, List.mem_filter.mpr ⟨hmem, by simpa using hty⟩, ?_⟩
      apply List.all_eq_true.mpr
      intro d hd
      simpa [List.contains] using hdays2 d hd

/-- Technician 1001 has availability covering day 0, technician 1002 has no
`Available` edge at all over day 0 — the Scenario-3 shape. -/
def gAvail : ScheduleGraph :=
  { nodes := [Node.technician 1001, Node.technician 1002, Node.day 0]
    hyperedges := [{ edge_type := .available, nodes := [0, 2] }]
    incidence_list := [[0], [], []]
    technician_indices := [(1001, 0), (1002, 1)]
    work_order_indices := []
    period_indices := []
    skill_indices := []
    day_indices := [(0, 2)] }

theorem C7_witness :
    gAvail.add_assignment_activity [1001, 1002] 1122334455 10 [0] (0, 0) =
      (gAvail, .error .WorkerUnavailable) :=
  (C7_worker_unavailable gAvail [1001, 1002] 1122334455 10 [0] (0, 0)
    (by decide) (by decide)).1
    ⟨1002, by decide, by decide⟩

/-! ### C2 -/

theorem add_node_activity (g : ScheduleGraph) (a : ActivityNode) :
    g.add_node (.activity a) =
      some ({ g with incidence_list := g.incidence_list ++ [[]],
                     nodes := g.nodes ++ [Node.activity a] }, g.nodes.length) := rfl

theorem any_of_imGet_some {K : Type} [DecidableEq K] {m : List (K × NodeIndex)}
    {k : K} {i : NodeIndex} (h : imGet m k = some i) :
    m.any (fun e => decide (e.1 = k)) = true :=
  List.any_eq_true.mpr ⟨(k, i), imGet_mem h, by simp⟩

theorem activities_relations_replicate (w : WorkOrder) :
    w.activities_relations =
      List.replicate w.activities.length ActivityRelation.FinishStart := by
  unfold WorkOrder.activities_relations
  rw [List.map_const', List.length_range]

theorem activities_relations_get? (w : WorkOrder) (j : Nat)
    (hj : j < w.activities.length) :
    w.activities_relations.get? j = some ActivityRelation.FinishStart := by
  rw [activities_relations_replicate, List.get?_eq_getElem?]
  rw [List.getElem?_eq_getElem (by simpa using hj)]
  simp

/-- Written from the spec (§4.3): the `Activity` nodes `add_work_order`
appends, in activity order. -/
def specWorkOrderNodes (acts : List Activity) : List Node :=
  acts.map (fun a => Node.activity ⟨a.activity_number, a.number_of_people⟩)

/-- Written from the spec (§4.3): the edges appended per activity — a
`Contains` edge from the work order, a `Requires` edge to the activity's
skill node (`σ`), and for every activity after the first one `FinishStart`
precedence edge from the previous activity (the per-gap relation list is all
`FinishStart`).  `base` is the arena position the current activity's node
receives, `prev` that of the previous one, `k` the activity index. -/
def specActivityEdges (σ : Activity → NodeIndex) (woIdx : NodeIndex)
    (prev k base : Nat) : List Activity → List HyperEdge
  | [] => []
  | a :: rest =>
    ({ edge_type := .contains, nodes := [woIdx, base] } ::
     { edge_type := .requires, nodes := [base, σ a] } ::
     (if k ≠ 0 then [{ edge_type := .finishStart, nodes := [prev, base] }] else []))
      ++ specActivityEdges σ woIdx base (k + 1) (base + 1) rest

/-- The graph state right after the activity loop's `add_node`. -/
def afterActivityNode (g : ScheduleGraph) (a : Activity) : ScheduleGraph :=
  { g with incidence_list := g.incidence_list ++ [[]],
           nodes := g.nodes ++ [Node.activity ⟨a.activity_number, a.number_of_people⟩] }

theorem work_order_loop_spec :
    ∀ (acts : List Activity) (g : ScheduleGraph) (rels : List ActivityRelation)
      (σ : Activity → NodeIndex) (woIdx prev k : Nat),
    (∀ a ∈ acts, imGet g.skill_indices a.resource = some (σ a)) →
    k + acts.length ≤ rels.length →
    (∀ j, j < rels.length → rels.get? j = some ActivityRelation.FinishStart) →
    ∃ g', ScheduleGraph.work_order_loop g woIdx rels prev k acts = some (g', .ok ()) ∧
      g'.nodes = g.nodes ++ specWorkOrderNodes acts ∧
      g'.hyperedges = g.hyperedges ++ specActivityEdges σ woIdx prev k g.nodes.length acts := by
  intro acts
  induction acts with
  | nil =>
    intro g rels σ woIdx prev k _ _ _
    exact ⟨g, rfl, by simp [specWorkOrderNodes], by simp [specActivityEdges]⟩
  | cons a rest ih =>
    intro g rels σ woIdx prev k hσ hlen hrels
    have hlen2 : (k + 1) + rest.length ≤ rels.length := by
      rw [List.length_cons] at hlen
      omega
    have hσ2 : ∀ b ∈ rest, imGet g.skill_indices b.resource = some (σ b) :=
      fun b hb => hσ b (List.mem_cons_of_mem a hb)
    unfold ScheduleGraph.work_order_loop
    rw [add_node_activity]
    dsimp only
    rw [hσ a (List.mem_cons_self a rest)]
    dsimp only
    by_cases hk : k ≠ 0
    · rw [if_pos hk]
      have hj : k - 1 < rels.length := by
        have h1 : 1 ≤ k := Nat.one_le_iff_ne_zero.mpr hk
        have h2 : k ≤ rels.length := le_trans (Nat.le_add_right k (a :: rest).length) hlen
        omega
      rw [hrels (k - 1) hj]
      dsimp only
      obtain ⟨g', hloop, hnodes, hedges⟩ := ih
        ((((afterActivityNode g a).add_edge
            EdgeType.contains [woIdx, g.nodes.length]).1.add_edge
            EdgeType.requires [g.nodes.length, σ a]).1.add_edge
            EdgeType.finishStart [prev, g.nodes.length]).1
        rels σ woIdx g.nodes.length (k + 1) hσ2 hlen2 hrels
      rw [add_edge_nodes, add_edge_nodes, add_edge_nodes] at hnodes
      rw [add_edge_hyperedges, add_edge_hyperedges, add_edge_hyperedges,
        add_edge_nodes, add_edge_nodes, add_edge_nodes] at hedges
      dsimp only [afterActivityNode] at hnodes hedges
      refine ⟨g', hloop, ?_, ?_⟩
      · rw [hnodes]
        simp [specWorkOrderNodes]
      · rw [hedges]
        simp only [specActivityEdges, if_pos hk]
        simp [List.length_append]
    · rw [if_neg hk]
      dsimp only
      obtain ⟨g', hloop, hnodes, hedges⟩ := ih
        (((afterActivityNode g a).add_edge
            EdgeType.contains [woIdx, g.nodes.length]).1.add_edge
            EdgeType.requires [g.nodes.length, σ a]).1
        rels σ woIdx g.nodes.length (k + 1) hσ2 hlen2 hrels
      rw [add_edge_nodes, add_edge_nodes] at hnodes
      rw [add_edge_hyperedges, add_edge_hyperedges,
        add_edge_nodes, add_edge_nodes] at hedges
      dsimp only [afterActivityNode] at hnodes hedges
      refine ⟨g', hloop, ?_, ?_⟩
      · rw [hnodes]
        simp [specWorkOrderNodes]
      · rw [hedges]
        simp only [specActivityEdges, if_neg hk]
        simp [List.length_append]

theorem specActivityEdges_countFS_pos (σ : Activity → NodeIndex) (woIdx : NodeIndex) :
    ∀ (acts : List Activity) (prev k base : Nat), k ≠ 0 →
    (specActivityEdges σ woIdx prev k base acts).countP
      (fun e => decide (e.edge_type = EdgeType.finishStart)) = acts.length := by
  intro acts
  induction acts with
  | nil => intro prev k base _; rfl
  | cons a rest ih =>
    intro prev k base hk
    simp only [specActivityEdges, if_pos hk]
    rw [List.countP_append, List.countP_cons, List.countP_cons, List.countP_cons,
      List.countP_nil, ih _ (k + 1) _ (Nat.succ_ne_zero k)]
    simp [List.length_cons]
    omega

theorem specActivityEdges_countFS_zero (σ : Activity → NodeIndex) (woIdx : NodeIndex) :
    ∀ (acts : List Activity) (prev base : Nat),
    (specActivityEdges σ woIdx prev 0 base acts).countP
      (fun e => decide (e.edge_type = EdgeType.finishStart)) = acts.length - 1 := by
  intro acts prev base
  cases acts with
  | nil => rfl
  | cons a rest =>
    have hpos := specActivityEdges_countFS_pos σ woIdx rest base 1 (base + 1) Nat.one_ne_zero
    simp [specActivityEdges, hpos]

/-- The graph state right after `add_work_order` creates the WorkOrder node. -/
def afterWorkOrderNode (g : ScheduleGraph) (won : WorkOrderNumber) : ScheduleGraph :=
  { g with work_order_indices := (won, g.nodes.length) :: g.work_order_indices,
           incidence_list := g.incidence_list ++ [[]],
           nodes := g.nodes ++ [Node.workOrder won] }

/-- C2 (amended): with every activity's skill indexed (at `σ`), the
basic-start date's Day node present, and the number unindexed,
`add_work_order` succeeds returning the new WorkOrder node's handle and
appends exactly: the WorkOrder node, one BasicStart edge
`[work_order, basic_start_day]`, then per activity (in order) one Activity
node, one Contains edge, one Requires edge, and one FinishStart precedence
edge for every activity after the first — so `n` activities yield exactly
`n - 1` FinishStart edges and none out of the last activity.  The per-gap
relation list `activities_relations` is all-`FinishStart` but has length
`n`, not `n - 1` as the claim stated (only its first `n - 1` entries are
consulted). -/
theorem C2_add_work_order_structure (g : ScheduleGraph) (wo : WorkOrder)
    (σ : Activity → NodeIndex) (dayIdx : NodeIndex)
    (hσ : ∀ a ∈ wo.activities, imGet g.skill_indices a.resource = some (σ a))
    (hday : dmGet g.day_indices wo.basic_start_date = some dayIdx)
    (hnew : imGet g.work_order_indices wo.work_order_number = none) :
    ∃ g', g.add_work_order wo = some (g', .ok g.nodes.length) ∧
      g'.nodes = g.nodes ++ Node.workOrder wo.work_order_number ::
        specWorkOrderNodes wo.activities ∧
      g'.hyperedges = g.hyperedges ++
        { edge_type := .basicStart, nodes := [g.nodes.length, dayIdx] } ::
        specActivityEdges σ g.nodes.length ScheduleGraph.usizeMaxSentinel 0
          (g.nodes.length + 1) wo.activities ∧
      (g'.hyperedges.drop g.hyperedges.length).countP
        (fun e => decide (e.edge_type = EdgeType.finishStart)) =
        wo.activities.length - 1 ∧
      wo.activities_relations =
        List.replicate wo.activities.length ActivityRelation.FinishStart := by
  have hall : (wo.activities.all (fun activity =>
      g.skill_indices.any (fun e => decide (e.1 = activity.resource)))) = true :=
    List.all_eq_true.mpr (fun a ha => any_of_imGet_some (hσ a ha))
  unfold ScheduleGraph.add_work_order
  rw [if_neg (by rw [hall]; exact fun hc => hc rfl), hday]
  dsimp only
  rw [hnew]
  dsimp only
  have hn : g.add_node (.workOrder wo.work_order_number) =
      some (afterWorkOrderNode g wo.work_order_number, g.nodes.length) := by
    unfold ScheduleGraph.add_node ScheduleGraph.indexLookup afterWorkOrderNode
    dsimp only
    rw [hnew]
    rfl
  rw [hn]
  dsimp only
  obtain ⟨g3, hloop, hnodes3, hedges3⟩ := work_order_loop_spec wo.activities
    (((afterWorkOrderNode g wo.work_order_number).add_edge EdgeType.basicStart
      [g.nodes.length, dayIdx]).1)
    wo.activities_relations σ g.nodes.length ScheduleGraph.usizeMaxSentinel 0
    (by
      intro a ha
      exact hσ a ha)
    (by
      rw [activities_relations_replicate, List.length_replicate]
      omega)
    (by
      intro j hj
      rw [activities_relations_replicate, List.length_replicate] at hj
      exact activities_relations_get? wo j hj)
  rw [hloop]
  dsimp only
  rw [add_edge_nodes] at hnodes3
  rw [add_edge_hyperedges, add_edge_nodes] at hedges3
  dsimp only [afterWorkOrderNode] at hnodes3 hedges3
  refine ⟨_, rfl, ?_, ?_, ?_, activities_relations_replicate wo⟩
  · show g3.nodes = _
    rw [hnodes3]
    simp
  · show g3.hyperedges = _
    rw [hedges3]
    simp
  · show (g3.hyperedges.drop g.hyperedges.length).countP _ = _
    rw [hedges3]
    have hlen2 : (g.nodes ++ [Node.workOrder wo.work_order_number]).length =
        g.nodes.length + 1 := by simp
    rw [hlen2]
    rw [List.append_assoc, List.drop_left]
    have hcons : [({ edge_type := .basicStart, nodes := [g.nodes.length, dayIdx] }
        : HyperEdge)] ++
        specActivityEdges σ g.nodes.length ScheduleGraph.usizeMaxSentinel 0
          (g.nodes.length + 1) wo.activities =
        ({ edge_type := .basicStart, nodes := [g.nodes.length, dayIdx] } : HyperEdge) ::
        specActivityEdges σ g.nodes.length ScheduleGraph.usizeMaxSentinel 0
          (g.nodes.length + 1) wo.activities := rfl
    rw [hcons, List.countP_cons, specActivityEdges_countFS_zero]
    simp

def woThree : WorkOrder :=
  { work_order_number := 1122334455
    basic_start_date := 0
    activities := [{ activity_number := 10, number_of_people := 1,
                     resource := Skill.MtnMech },
                   { activity_number := 20, number_of_people := 1,
                     resource := Skill.MtnMech },
                   { activity_number := 30, number_of_people := 1,
                     resource := Skill.MtnMech }] }

/-- C2 as stated is false on one point: for a three-activity work order the
per-gap relation list returned by `activities_relations` has length 3
(= activity count), not 2 (= activity count − 1). -/
theorem C2_counterexample :
    woThree.activities.length = 3 ∧
    woThree.activities_relations.length ≠ woThree.activities.length - 1 ∧
    woThree.activities_relations.length = 3 := by
  refine ⟨rfl, ?_, ?_⟩ <;> decide

theorem C2_witness :
    ∃ g', gMechPeriod.add_work_order woThree = some (g', .ok gMechPeriod.nodes.length) ∧
      g'.nodes = gMechPeriod.nodes ++ Node.workOrder woThree.work_order_number ::
        specWorkOrderNodes woThree.activities ∧
      g'.hyperedges = gMechPeriod.hyperedges ++
        { edge_type := .basicStart, nodes := [gMechPeriod.nodes.length, 1] } ::
        specActivityEdges (fun _ => 0) gMechPeriod.nodes.length
          ScheduleGraph.usizeMaxSentinel 0 (gMechPeriod.nodes.length + 1)
          woThree.activities ∧
      (g'.hyperedges.drop gMechPeriod.hyperedges.length).countP
        (fun e => decide (e.edge_type = EdgeType.finishStart)) =
        woThree.activities.length - 1 ∧
      woThree.activities_relations =
        List.replicate woThree.activities.length ActivityRelation.FinishStart :=
  C2_add_work_order_structure gMechPeriod woThree (fun _ => 0) 1
    (by decide) (by decide) (by decide)

/-! ### C8 -/

/-- The node kinds carrying a uniquely-indexed key (all but `Activity`). -/
def nodeKeyed : Node → Bool
  | .activity _ => false
  | _ => true

theorem reachable_gMechPeriod : Reachable gMechPeriod :=
  @Reachable.add_period gMech gMechPeriod ⟨0⟩ (.ok 15) reachable_gMech (by decide)

/-- C8 (amended): in every reachable state at most one node exists per key
for every uniquely-keyed node kind (first conjunct); a second
`add_technician`, `add_period` or `add_work_order` whose key is already
indexed returns `WorkerDuplicate` / `PeriodDuplicate` / `WorkOrderDuplicate`
respectively, with the graph — hence the node arena — unchanged (for
`add_work_order` only once the two earlier validations pass, per C3);
`add_skill` on an existing skill, however, has no fault channel at all: it
returns the existing node's handle and creates no node (last conjunct). -/
theorem C8_key_uniqueness (g : ScheduleGraph) (hg : Reachable g) :
    (∀ (i j : Nat) (nd : Node), g.nodes[i]? = some nd → g.nodes[j]? = some nd →
      nodeKeyed nd = true → i = j) ∧
    (∀ (t : Technician) (av : Availability),
      (imGet g.technician_indices t.technician_id).isSome →
      g.add_technician t av = some (g, .error .WorkerDuplicate)) ∧
    (∀ p : Period, (imGet g.period_indices p).isSome →
      g.add_period p = some (g, .error .PeriodDuplicate)) ∧
    (∀ wo : WorkOrder, (wo.activities.all (fun activity =>
        g.skill_indices.any (fun e => decide (e.1 = activity.resource)))) →
      (dmGet g.day_indices wo.basic_start_date).isSome →
      (imGet g.work_order_indices wo.work_order_number).isSome →
      g.add_work_order wo = some (g, .error .WorkOrderDuplicate)) ∧
    (∀ (s : Skill) (i : NodeIndex), imGet g.skill_indices s = some i →
      g.add_skill s = some (g, i)) := by
  have hInv := inv_reachable hg
  refine ⟨?_, ?_, ?_, ?_, ?_⟩
  · intro i j nd hi hj hkey
    cases nd with
    | technician k =>
      have h1 := hInv.tech_complete i k hi
      have h2 := hInv.tech_complete j k hj
      rw [h1] at h2
      exact (Option.some.injEq _ _ ▸ h2 : i = j)
    | workOrder k =>
      have h1 := hInv.wo_complete i k hi
      have h2 := hInv.wo_complete j k hj
      rw [h1] at h2
      exact (Option.some.injEq _ _ ▸ h2 : i = j)
    | period k =>
      have h1 := hInv.period_complete i k hi
      have h2 := hInv.period_complete j k hj
      rw [h1] at h2
      exact (Option.some.injEq _ _ ▸ h2 : i = j)
    | skill k =>
      have h1 := hInv.skill_complete i k hi
      have h2 := hInv.skill_complete j k hj
      rw [h1] at h2
      exact (Option.some.injEq _ _ ▸ h2 : i = j)
    | day k =>
      have h1 := hInv.day_complete i k hi
      have h2 := hInv.day_complete j k hj
      rw [h1] at h2
      exact (Option.some.injEq _ _ ▸ h2 : i = j)
    | activity a => cases hkey
  · intro t av hc
    unfold ScheduleGraph.add_technician
    rw [if_pos hc]
  · intro p hc
    unfold ScheduleGraph.add_period
    rw [if_pos hc]
  · intro wo hskills hday hdup
    unfold ScheduleGraph.add_work_order
    rw [if_neg (by rw [hskills]; exact fun hc => hc rfl)]
    cases hd : dmGet g.day_indices wo.basic_start_date with
    | none => rw [hd] at hday; cases hday
    | some dayIdx =>
      dsimp only
      cases hw : imGet g.work_order_indices wo.work_order_number with
      | none => rw [hw] at hdup; cases hdup
      | some x => rfl
  · intro s i hc
    unfold ScheduleGraph.add_skill
    rw [hc]

/-- C8 as stated is false for skills: at a reachable state already holding
`MtnMech`, a second `add_skill(MtnMech)` succeeds, returning the existing
handle 0 through its plain `NodeIndex` return type — no Duplicate/Missing
fault exists in its signature — while creating no new node. -/
theorem C8_counterexample :
    gMech.add_skill Skill.MtnMech = some (gMech, 0) ∧
    (stepG (gMech.add_skill Skill.MtnMech) gMech).nodes.length =
      gMech.nodes.length := by
  exact ⟨by decide, by decide⟩

theorem C8_witness :
    gMechPeriod.add_period ⟨0⟩ = some (gMechPeriod, .error .PeriodDuplicate) :=
  (C8_key_uniqueness gMechPeriod reachable_gMechPeriod).2.2.1 ⟨0⟩ (by decide)

end OrdinatorHypergraph
